import Mathlib

set_option maxRecDepth 8000

/-!
# Verification of the Port-Folio_Map patch scripts

The repository consists of two Python scripts, `update_medical.py` and
`update_forvia.py`.  Each reads the file `main.js` into a string, applies a
fixed ordered list of `re.sub(pattern, replacement, content)` substitutions,
writes the result back, and prints a fixed success message.

Shallow embedding used here:

* A buffer is a `List Char`.
* Every pattern in the two scripts is a concatenation of literal characters
  (regex-escaped in the source) and `\s+` atoms.  A pattern is embedded as a
  `List PTok`, where `PTok.lit c` is a literal character and `PTok.ws` is one
  `\s+` atom.
* `\s+` is greedy with backtracking in Python, but in every pattern of the two
  scripts each `\s+` is immediately followed by a non-whitespace literal
  (`i`, `s`, `}`, `/`, `m`), so the greedy match never backtracks and equals
  the maximal whitespace run.  `matchToks` therefore implements maximal munch;
  the lemma `allRules_wsOk` below records, by computation, that every `\s+`
  in every embedded pattern is followed by a non-whitespace literal.
* Every capture group appearing in the two scripts wraps the whole pattern,
  so the backreference `\1` in a replacement denotes the whole match.  A
  replacement is a `List RTok`, where `RTok.rgroup` is `\1` (the whole match)
  and `RTok.rlit c` a literal character.
* `sub r s` implements Python `re.sub` with `count=0`: scan left to right,
  replace the leftmost match, continue after the replaced text
  (non-overlapping), repeat.  It is total - a pattern that never matches
  leaves the buffer unchanged and no error is possible, mirroring the fact
  that `re.sub` raises nothing on zero matches.
-/

namespace PortfolioPatch

/-- Python `\s` for `str` patterns (Unicode whitespace, as matched by the
`re` module: `[ \t\n\r\f\v]`, the file/group separators `\x1c`-`\x1f`,
`\x85`, `\xa0`, and the Unicode space characters). -/
def isPySpace (c : Char) : Bool :=
  let n := c.toNat
  n == 32 || n == 10 || n == 9 || n == 13 || n == 12 || n == 11 ||
  n == 28 || n == 29 || n == 30 || n == 31 || n == 0x85 || n == 0xa0 ||
  n == 0x1680 || n == 0x2028 || n == 0x2029 || n == 0x202f || n == 0x205f ||
  n == 0x3000 || (0x2000 ≤ n && n ≤ 0x200a)

/-- One atom of a pattern: a literal character or one `\s+`. -/
inductive PTok where
  | lit (c : Char)
  | ws
deriving DecidableEq, Repr

/-- One atom of a replacement template: a literal character or the
backreference `\1` (which, in both scripts, is the whole match). -/
inductive RTok where
  | rlit (c : Char)
  | rgroup
deriving DecidableEq, Repr

/-- A substitution rule `(pattern, replacement)` as passed to `re.sub`. -/
structure Rule where
  pat : List PTok
  repl : List RTok
deriving DecidableEq, Repr

/-- Literal characters of a string, as pattern atoms. -/
def lits (s : String) : List PTok := s.data.map PTok.lit

/-- Literal characters of a string, as replacement atoms. -/
def rlits (s : String) : List RTok := s.data.map RTok.rlit

/-- The pattern shape `\s+ A \s+ B \s+ C` shared by the block-matching rules
of the two scripts. -/
def shape3 (a b c : String) : List PTok :=
  PTok.ws :: (lits a ++ PTok.ws :: (lits b ++ PTok.ws :: lits c))

/-- Length of the maximal whitespace run at the front of `s`. -/
def wsRun (s : List Char) : Nat := (s.takeWhile isPySpace).length

/-- Match a token list at the front of `s`; `some n` means the pattern
matches consuming exactly `n` characters.  `\s+` consumes the maximal
whitespace run (at least one character); in the patterns of the two scripts
this equals Python's greedy match, see the header comment. -/
def matchToks : List PTok → List Char → Option Nat
  | [], _ => some 0
  | PTok.lit _ :: _, [] => none
  | PTok.lit c :: ts, x :: xs =>
      if x = c then (matchToks ts xs).map (· + 1) else none
  | PTok.ws :: _, [] => none
  | PTok.ws :: ts, x :: xs =>
      if isPySpace x then
        (matchToks ts (xs.drop (wsRun xs))).map (fun n => n + 1 + wsRun xs)
      else none

/-- Instantiate a replacement template on the matched text `m`. -/
def instRepl (repl : List RTok) (m : List Char) : List Char :=
  match repl with
  | [] => []
  | RTok.rlit c :: rs => c :: instRepl rs m
  | RTok.rgroup :: rs => m ++ instRepl rs m

/-- Fuel-indexed body of `sub`; the fuel only bounds the recursion and any
fuel at least the length of the buffer gives the same result
(`subN_fuel_irrel`). -/
def subN (r : Rule) : Nat → List Char → List Char
  | 0, s => s
  | _ + 1, [] =>
      match matchToks r.pat [] with
      | some _ => instRepl r.repl []
      | none => []
  | b + 1, c :: cs =>
      match matchToks r.pat (c :: cs) with
      | none => c :: subN r b cs
      | some 0 => instRepl r.repl [] ++ c :: subN r b cs
      | some (n + 1) =>
          instRepl r.repl ((c :: cs).take (n + 1)) ++ subN r b ((c :: cs).drop (n + 1))

/-- `re.sub(pattern, replacement, s)` with the default `count=0`: replace
every non-overlapping match, scanning left to right.  The fuel
`s.length + 1` covers one scan position per character plus the final empty
position. -/
def sub (r : Rule) (s : List Char) : List Char := subN r (s.length + 1) s

/-- Does the pattern match at some position of `s` (including the empty
position at the end, which Python's scan also tries)? -/
def anyMatch (p : List PTok) : List Char → Bool
  | [] => (matchToks p []).isSome
  | c :: cs => (matchToks p (c :: cs)).isSome || anyMatch p cs

/-- Text of the leftmost match of `r.pat` in `s`, if any. -/
def firstMatch? (r : Rule) : List Char → Option (List Char)
  | [] => if (matchToks r.pat []).isSome then some [] else none
  | c :: cs =>
      match matchToks r.pat (c :: cs) with
      | some n => some ((c :: cs).take n)
      | none => firstMatch? r cs

/-- Fuel-indexed match counter, scanning exactly like `subN`. -/
def countN (r : Rule) : Nat → List Char → Nat
  | 0, _ => 0
  | _ + 1, [] => if (matchToks r.pat []).isSome then 1 else 0
  | b + 1, c :: cs =>
      match matchToks r.pat (c :: cs) with
      | none => countN r b cs
      | some 0 => countN r b cs + 1
      | some (n + 1) => countN r b ((c :: cs).drop (n + 1)) + 1

/-- Number of non-overlapping matches replaced by one `sub`. -/
def countMatches (r : Rule) (s : List Char) : Nat := countN r (s.length + 1) s

/-- Split `s` at the leftmost match: `some (u, m, v)` with `s = u ++ m ++ v`,
`m` the matched text, and no match starting inside `u`. -/
def splitAtMatch (r : Rule) : List Char → Option (List Char × List Char × List Char)
  | [] =>
      match matchToks r.pat [] with
      | some _ => some ([], [], [])
      | none => none
  | c :: cs =>
      match matchToks r.pat (c :: cs) with
      | some n => some ([], (c :: cs).take n, (c :: cs).drop n)
      | none => (splitAtMatch r cs).map (fun p => (c :: p.1, p.2.1, p.2.2))

/-- `leadsWith t s`: `t` is a prefix of `s`. -/
def leadsWith : List Char → List Char → Bool
  | [], _ => true
  | _ :: _, [] => false
  | a :: ts, b :: ss => if a = b then leadsWith ts ss else false

/-- `occursIn t s`: `t` occurs as a contiguous substring of `s`. -/
def occursIn (t : List Char) : List Char → Bool
  | [] => t.isEmpty
  | c :: cs => leadsWith t (c :: cs) || occursIn t cs

/-- Number of positions of `s` at which `t` occurs (occurrences may
overlap). -/
def occCount (t : List Char) : List Char → Nat
  | [] => if t.isEmpty then 1 else 0
  | c :: cs => (if leadsWith t (c :: cs) then 1 else 0) + occCount t cs

/-- Number of `lit` atoms of a pattern; every match consumes at least this
many characters. -/
def litCount : List PTok → Nat
  | [] => 0
  | PTok.lit _ :: ts => litCount ts + 1
  | PTok.ws :: ts => litCount ts

/-- `leadsWithP t p`: the token list `t` is a prefix of `p`. -/
def leadsWithP : List PTok → List PTok → Bool
  | [], _ => true
  | _ :: _, [] => false
  | a :: ts, b :: ss => if a = b then leadsWithP ts ss else false

/-- `occursInP t p`: the token list `t` occurs contiguously in `p`.  Used to
state that a pattern contains a fixed literal run (such as the letters of
`medical`). -/
def occursInP (t : List PTok) : List PTok → Bool
  | [] => t.isEmpty
  | c :: cs => leadsWithP t (c :: cs) || occursInP t cs

/-! ## The rules of `update_medical.py`, in their listed order. -/

/-- Pattern of the condition-check rule (`update_medical.py` line 9). -/
def medCondPat : String :=
  "if (object.userData.type === \x27trashTruck\x27 || object.userData.type === \x27convoyeur\x27 || object.userData.type === \x27sensorSensei\x27)"

/-- Replacement of the condition-check rule (`update_medical.py` line 10). -/
def medCondRepl : String :=
  "if (object.userData.type === \x27trashTruck\x27 || object.userData.type === \x27convoyeur\x27 || object.userData.type === \x27sensorSensei\x27 || object.userData.type === \x27medical\x27)"

/-- First literal run of the modal-insertion pattern (`update_medical.py` line 16). -/
def medIfA : String :=
  "if (object.userData.type === \x27sensorSensei\x27 && !sensorSenseiModalClosed) \x7b"

/-- Second literal run of the modal-insertion pattern. -/
def medIfB : String := "showSensorSenseiModal();"

/-- Third literal run of the modal-insertion pattern. -/
def medIfC : String := "\x7d"

/-- Text inserted after the matched sensorSensei block (`update_medical.py`
line 17, the part of the replacement after `\1`). -/
def medIfIns : String :=
  "\n        if (object.userData.type === \x27medical\x27 && !medicalModalClosed) \x7b\n          showMedicalModal();\n        \x7d"

/-- First literal run of the reset-insertion pattern (`update_medical.py` line 23). -/
def medResetA : String :=
  "// Reset sensorSensei modal state when navigating to different areas"

/-- Second literal run of the reset-insertion pattern. -/
def medResetB : String := "sensorSenseiModalClosed = false;"

/-- Third literal run of the reset-insertion pattern. -/
def medResetC : String := "sensorSenseiModalOpened = false;"

/-- Text inserted after the matched sensorSensei reset block
(`update_medical.py` line 24, the part of the replacement after `\1`). -/
def medResetIns : String :=
  "\n      \n      // Reset medical modal state when navigating to different areas\n      medicalModalClosed = false;\n      medicalModalOpened = false;"

/-- Pattern of the comment rule (`update_medical.py` line 31). -/
def medCommentPat : String :=
  "// Handle objects that don\x27t need camera movement (trashTruck, convoyeur, sensorSensei)"

/-- Replacement of the comment rule (`update_medical.py` line 32). -/
def medCommentRepl : String :=
  "// Handle objects that don\x27t need camera movement (trashTruck, convoyeur, sensorSensei, medical)"

/-- Rule 1 of `update_medical.py`: add `medical` to the condition check. -/
def med1 : Rule := ⟨lits medCondPat, rlits medCondRepl⟩

/-- Rule 2 of `update_medical.py`: insert the medical modal call after the
sensorSensei modal call (`\1` followed by the inserted block). -/
def med2 : Rule := ⟨shape3 medIfA medIfB medIfC, RTok.rgroup :: rlits medIfIns⟩

/-- Rule 3 of `update_medical.py`: insert the medical reset lines after the
sensorSensei reset lines. -/
def med3 : Rule := ⟨shape3 medResetA medResetB medResetC, RTok.rgroup :: rlits medResetIns⟩

/-- Rule 4 of `update_medical.py`: update the handler comment. -/
def med4 : Rule := ⟨lits medCommentPat, rlits medCommentRepl⟩

/-- The rules of `update_medical.py` in their listed order. -/
def medicalRules : List Rule := [med1, med2, med3, med4]

/-- The whole transformation of `update_medical.py`: the four substitutions
applied in order, each to the output of the previous one. -/
def updateMedical (s : List Char) : List Char :=
  sub med4 (sub med3 (sub med2 (sub med1 s)))

/-! ## The rules of `update_forvia.py`, in their listed order. -/

/-- `pattern1` of `update_forvia.py` (the capture group wraps the whole
pattern and `replacement1` does not use `\1`, so the group is irrelevant). -/
def forviaCondPat : String :=
  "object.userData.type === \x27trashTruck\x27 || object.userData.type === \x27convoyeur\x27 || object.userData.type === \x27sensorSensei\x27 || object.userData.type === \x27medical\x27"

/-- `replacement1` of `update_forvia.py`. -/
def forviaCondRepl : String :=
  "object.userData.type === \x27trashTruck\x27 || object.userData.type === \x27convoyeur\x27 || object.userData.type === \x27sensorSensei\x27 || object.userData.type === \x27medical\x27 || object.userData.type === \x27forviaCAR\x27"

/-- First literal run of `pattern2` of `update_forvia.py`. -/
def forviaIfA : String :=
  "if (object.userData.type === \x27medical\x27 && !medicalModalClosed) \x7b"

/-- Second literal run of `pattern2`. -/
def forviaIfB : String := "showMedicalModal();"

/-- Third literal run of `pattern2`. -/
def forviaIfC : String := "\x7d"

/-- Text inserted by `replacement2` after the matched medical block. -/
def forviaIfIns : String :=
  "\n        if (object.userData.type === \x27forviaCAR\x27 && !forviaCarModalClosed) \x7b\n          showForviaCarModal();\n        \x7d"

/-- `pattern3` of `update_forvia.py`. -/
def forviaCommentPat : String :=
  "// Handle objects that don\x27t need camera movement (trashTruck, convoyeur, sensorSensei, medical)"

/-- `replacement3` of `update_forvia.py`. -/
def forviaCommentRepl : String :=
  "// Handle objects that don\x27t need camera movement (trashTruck, convoyeur, sensorSensei, medical, forviaCAR)"

/-- First literal run of `pattern4` of `update_forvia.py`. -/
def forviaBackA : String := "// Reset medical modal state when going back to overview"

/-- Second literal run of `pattern4` (also of `pattern5`). -/
def forviaBackB : String := "medicalModalClosed = false;"

/-- Third literal run of `pattern4` (also of `pattern5`). -/
def forviaBackC : String := "medicalModalOpened = false;"

/-- Text inserted by `replacement4` after the matched reset block. -/
def forviaBackIns : String :=
  "\n    \n    // Reset forviaCAR modal state when going back to overview\n    forviaCarModalClosed = false;\n    forviaCarModalOpened = false;"

/-- First literal run of `pattern5` of `update_forvia.py`. -/
def forviaNavA : String := "// Reset medical modal state when navigating to different areas"

/-- Text inserted by `replacement5` after the matched reset block. -/
def forviaNavIns : String :=
  "\n      \n      // Reset forviaCAR modal state when navigating to different areas\n      forviaCarModalClosed = false;\n      forviaCarModalOpened = false;"

/-- Rule `pattern1/replacement1` of `update_forvia.py`. -/
def fr1 : Rule := ⟨lits forviaCondPat, rlits forviaCondRepl⟩

/-- Rule `pattern2/replacement2` of `update_forvia.py`. -/
def fr2 : Rule := ⟨shape3 forviaIfA forviaIfB forviaIfC, RTok.rgroup :: rlits forviaIfIns⟩

/-- Rule `pattern3/replacement3` of `update_forvia.py`. -/
def fr3 : Rule := ⟨lits forviaCommentPat, rlits forviaCommentRepl⟩

/-- Rule `pattern4/replacement4` of `update_forvia.py`. -/
def fr4 : Rule := ⟨shape3 forviaBackA forviaBackB forviaBackC, RTok.rgroup :: rlits forviaBackIns⟩

/-- Rule `pattern5/replacement5` of `update_forvia.py`. -/
def fr5 : Rule := ⟨shape3 forviaNavA forviaBackB forviaBackC, RTok.rgroup :: rlits forviaNavIns⟩

/-- The rules of `update_forvia.py` in their listed order. -/
def forviaRules : List Rule := [fr1, fr2, fr3, fr4, fr5]

/-- The whole transformation of `update_forvia_integration`: the five
substitutions applied in order, each to the output of the previous one. -/
def updateForvia (s : List Char) : List Char :=
  sub fr5 (sub fr4 (sub fr3 (sub fr2 (sub fr1 s))))

/-- Every rule of either script. -/
def allRules : List Rule := medicalRules ++ forviaRules

/-! ## The run model: read, transform, write, print. -/

/-- Success message printed by `update_medical.py`. -/
def medicalMsg : String := "Medical integration completed successfully!"

/-- Success message printed by `update_forvia.py`. -/
def forviaMsg : String := "FORVIA car integration completed successfully!"

/-- One script run over the target file, modelled on `Option (List Char)`:
`none` is a file that cannot be read (missing, permission denied, decoding
failure).  A read fault aborts the run before anything is written (the file
is returned untouched, i.e. still `none` of any new content) and before
anything is printed; otherwise the fully transformed buffer is written and
the fixed success message is printed. -/
def runScript (f : List Char → List Char) (msg : String) :
    Option (List Char) → Option (List Char) × Option String
  | none => (none, none)
  | some c => (some (f c), some msg)

/-- A run of `update_medical.py` on the given file state. -/
def runMedical : Option (List Char) → Option (List Char) × Option String :=
  runScript updateMedical medicalMsg

/-- A run of `update_forvia.py` on the given file state. -/
def runForvia : Option (List Char) → Option (List Char) × Option String :=
  runScript updateForvia forviaMsg

/-! ## Auxiliary predicates used in the analysis -/

/-- Does a pattern end with a literal atom?  (Every pattern of the two
scripts does; a match of such a pattern stays unchanged when the buffer is
extended on the right, `matchToks_append_right`.) -/
def endsLit : List PTok → Bool
  | [] => false
  | [PTok.lit _] => true
  | [PTok.ws] => false
  | _ :: t :: ts => endsLit (t :: ts)

/-- Every `\s+` of the pattern is followed by a non-whitespace literal.
Under this condition (which holds for all nine patterns of the scripts,
`allRules_wsOk`), Python's greedy `\s+` never backtracks, so the maximal
munch of `matchToks` is exactly Python's semantics. -/
def wsOk : List PTok → Bool
  | [] => true
  | PTok.lit _ :: ts => wsOk ts
  | PTok.ws :: PTok.lit c :: ts => !isPySpace c && wsOk (PTok.lit c :: ts)
  | PTok.ws :: PTok.ws :: _ => false
  | [PTok.ws] => false

/-- `Overlay X Y d`: placing `Y` at offset `d` over `X`, all positions that
fall inside `X` agree.  Used to express that two fixed strings can occur
overlapping in some buffer. -/
def Overlay (X Y : List Char) (d : Nat) : Prop :=
  ∀ k, k < Y.length → d + k < X.length → X[d + k]? = Y[k]?

instance Overlay.dec (X Y : List Char) (d : Nat) : Decidable (Overlay X Y d) := by
  unfold Overlay; infer_instance

/-- `CanOv P t`: an occurrence of `P` and an occurrence of `t` can intersect
in some buffer (either `t` starts inside an occurrence of `P`, or `P` starts
strictly inside an occurrence of `t`). -/
def CanOv (P t : List Char) : Prop :=
  (∃ d, d < P.length ∧ Overlay P t d) ∨ (∃ e, e < t.length ∧ 1 ≤ e ∧ Overlay t P e)

instance CanOv.dec (P t : List Char) : Decidable (CanOv P t) := by
  unfold CanOv; infer_instance

/-- `agreeSW X t d`: a copy of `X` ending at index `d` of `t` agrees with
`t` at every position that falls inside `t`. -/
def agreeSW (X t : List Char) (d : Nat) : Prop :=
  ∀ l, l < X.length → l ≤ d → t[d - l]? = X[X.length - 1 - l]?

instance agreeSW.dec (X t : List Char) (d : Nat) : Decidable (agreeSW X t d) := by
  unfold agreeSW; infer_instance

/-- `SplitSafe E t`: no copy of `E` can end strictly before the last
character of `t` while agreeing with `t` on the overlap.  For a rule whose
pattern ends in the literal run `E` and whose replacement is `\1` followed
by inserted text, this means no match can end strictly inside an occurrence
of `t`, so the insertion never splits `t` (`occursIn_sub_insertion`). -/
def SplitSafe (E t : List Char) : Prop :=
  ∀ j, j + 1 < t.length → ¬ agreeSW E t j

instance SplitSafe.dec (E t : List Char) : Decidable (SplitSafe E t) := by
  unfold SplitSafe
  have : (∀ j, j + 1 < t.length → ¬ agreeSW E t j) ↔
      (∀ j, j < t.length - 1 → ¬ agreeSW E t j) := by
    constructor <;> intro h j hj <;> exact h j (by omega)
  exact decidable_of_iff _ this.symm

/-- `wsRange t a b`: every character of `t` with index in `[a, b)` is
whitespace. -/
def wsRange (t : List Char) (a b : Nat) : Prop :=
  ∀ x, x < b → a ≤ x → (t[x]?.all isPySpace) = true

instance wsRange.dec (t : List Char) (a b : Nat) : Decidable (wsRange t a b) := by
  unfold wsRange; infer_instance

/-- Part of `NoSplit3`: a copy of `A` (first literal run of a 3-run
pattern), placed before a whitespace gap ending at index `bs` of `t`, is
consistent with `t` — either everything left of `bs` is whitespace (the
copy lies left of `t`), or the copy ends at some `a - 1` inside `t` and
agrees there. -/
def BadA (A t : List Char) (bs : Nat) : Prop :=
  wsRange t 0 bs ∨ ∃ a, a < bs ∧ 1 ≤ a ∧ agreeSW A t (a - 1) ∧ wsRange t a bs

instance BadA.dec (A t : List Char) (bs : Nat) : Decidable (BadA A t bs) := by
  unfold BadA; infer_instance

/-- Part of `NoSplit3`: copies of `B` then whitespace then the end of the
pattern, ending at index `cs` of `t`, are consistent with `t`. -/
def BadB (A B t : List Char) (cs : Nat) : Prop :=
  wsRange t 0 cs ∨ ∃ b, b < cs ∧ 1 ≤ b ∧ agreeSW B t (b - 1) ∧ wsRange t b cs ∧
    (b ≤ B.length ∨ BadA A t (b - B.length))

instance BadB.dec (A B t : List Char) (cs : Nat) : Decidable (BadB A B t cs) := by
  unfold BadB; infer_instance

/-- `NoSplit3 A B C t`: no match of the pattern `\s+ A \s+ B \s+ C` can end
strictly inside an occurrence of `t`: wherever a copy of `C` could end at
index `δ` of `t` (strictly before the last character) while agreeing with
`t`, walking the rest of the pattern backwards through `t` hits a definite
mismatch inside `t`. -/
def NoSplit3 (A B C t : List Char) : Prop :=
  ∀ d, d < t.length - 1 → agreeSW C t d →
    C.length ≤ d + 1 ∧ ¬ BadB A B t (d + 1 - C.length)

instance NoSplit3.dec (A B C t : List Char) : Decidable (NoSplit3 A B C t) := by
  unfold NoSplit3; infer_instance


/-! ## Executable checkers for the overlap conditions

The bounded-quantifier conditions above are convenient in proofs; the
following Bool-valued versions evaluate much more cheaply in the kernel.
The bridging lemmas in the theorems section transport their results to the
Prop forms. -/

/-- `compatB u v`: `u` and `v` agree at every position both of them have. -/
def compatB : List Char → List Char → Bool
  | [], _ => true
  | _ :: _, [] => true
  | a :: as, b :: bs => a == b && compatB as bs

/-- Executable version of `agreeSW` (for `d < t.length`). -/
def agreeB (X t : List Char) (d : Nat) : Bool :=
  compatB X.reverse ((t.take (d + 1)).reverse)

/-- Executable version of `Overlay`. -/
def overlayB (X Y : List Char) (d : Nat) : Bool := compatB (X.drop d) Y

/-- Executable version of `CanOv`. -/
def canOvB (P t : List Char) : Bool :=
  ((List.range P.length).any fun d => overlayB P t d) ||
    ((List.range t.length).any fun e => !(e == 0) && overlayB t P e)

/-- Executable version of `SplitSafe`. -/
def splitSafeB (E t : List Char) : Bool :=
  (List.range (t.length - 1)).all fun j => !agreeB E t j

/-- Executable version of `wsRange`. -/
def wsRangeB (t : List Char) (a b : Nat) : Bool :=
  ((t.drop a).take (b - a)).all isPySpace

/-- Executable version of `BadA`. -/
def badAB (A t : List Char) (bs : Nat) : Bool :=
  wsRangeB t 0 bs ||
    ((List.range bs).any fun a => !(a == 0) && (agreeB A t (a - 1) && wsRangeB t a bs))

/-- Executable version of `BadB`. -/
def badBB (A B t : List Char) (cs : Nat) : Bool :=
  wsRangeB t 0 cs ||
    ((List.range cs).any fun b => !(b == 0) && (agreeB B t (b - 1) && (wsRangeB t b cs &&
      (decide (b ≤ B.length) || badAB A t (b - B.length)))))

/-- Executable version of `NoSplit3`. -/
def noSplit3B (A B C t : List Char) : Bool :=
  (List.range (t.length - 1)).all fun d =>
    !agreeB C t d || (decide (C.length ≤ d + 1) && !badBB A B t (d + 1 - C.length))

/-! ## Concrete buffers used as test inputs -/

/-- The canonical sensorSensei modal block (the text `pattern2` of
`update_medical.py` is written to match), with the indentation used by the
scripts' replacement templates. -/
def sbCore : String := medIfA ++ "\n          " ++ medIfB ++ "\n        " ++ medIfC

/-- The canonical medical modal block, i.e. exactly what rule 2 of
`update_medical.py` inserts (without the leading newline+indent). -/
def mcCore : String :=
  forviaIfA ++ "\n          " ++ forviaIfB ++ "\n        " ++ forviaIfC

/-- The canonical going-back-to-overview medical reset block (the text
`pattern4` of `update_forvia.py` is written to match). -/
def backCore : String := forviaBackA ++ "\n    " ++ forviaBackB ++ "\n    " ++ forviaBackC

/-- The canonical navigating-to-different-areas medical reset block, i.e.
what rule 3 of `update_medical.py` inserts (without the leading
newline+indent). -/
def navCore : String := forviaNavA ++ "\n      " ++ forviaBackB ++ "\n      " ++ forviaBackC

/-- A buffer holding exactly one match of `pattern2` of `update_forvia.py`:
the canonical medical modal block with leading whitespace. -/
def bufOneMedicalBlock : String := "\n        " ++ mcCore

/-- A buffer that already contains the replacement text of the medical
condition-check rule and one further match of its pattern. -/
def bufReplAndPat : String := medCondRepl ++ "\n" ++ medCondPat

/-- A buffer holding the canonical sensorSensei modal block with leading
whitespace (one match of rule 2 of `update_medical.py`). -/
def bufOneSensorBlock : String := "\n        " ++ sbCore

/-- The substring whose presence end-to-end scenario 1 of the specification
asserts in the output of the medical rule set. -/
def scenario1Target : String :=
  "|| object.userData.type === \x27sensorSensei\x27 || object.userData.type === \x27medical\x27)"

/-- A buffer with a medical modal block following a sensorSensei modal
block, but with a non-whitespace character between the two blocks, so that
`pattern2` of `update_forvia.py` (which requires `\s+` before the `if`)
cannot match. -/
def bufNoWsMedicalBlock : String := sbCore ++ "x" ++ mcCore

/-- A buffer containing two matches of the medical condition-check rule. -/
def bufTwoCond : String := medCondPat ++ "+" ++ medCondPat

/-- The configuration end-to-end scenario 2 of the specification starts
from: a medical modal block following a sensorSensei modal block. -/
def bufScenario2 : String := sbCore ++ "\n        " ++ mcCore

/-- The canonical going-back-to-overview medical reset block with leading
whitespace (one match of `pattern4` of `update_forvia.py`). -/
def bufBackBlock : String := "\n    " ++ backCore

/-- The canonical navigating-to-different-areas medical reset block with
leading whitespace (one match of `pattern5` of `update_forvia.py`). -/
def bufNavBlock : String := "\n      " ++ navCore

/-! ## Basic properties of the matcher and of `sub` -/

theorem matchToks_nil_of_ne {p : List PTok} (hp : p ≠ []) : matchToks p [] = none := by
  match p with
  | [] => exact absurd rfl hp
  | PTok.lit _ :: _ => rfl
  | PTok.ws :: _ => rfl

theorem takeWhile_length_le {α : Type} (p : α → Bool) :
    ∀ l : List α, (l.takeWhile p).length ≤ l.length := by
  intro l
  induction l with
  | nil => simp
  | cons a l ih =>
    by_cases h : p a = true
    · simpa [List.takeWhile_cons, h] using ih
    · simp [List.takeWhile_cons, h]

theorem wsRun_le (s : List Char) : wsRun s ≤ s.length :=
  takeWhile_length_le isPySpace s

theorem matchToks_le_length :
    ∀ (p : List PTok) (s : List Char) (n : Nat), matchToks p s = some n → n ≤ s.length := by
  intro p
  induction p with
  | nil =>
    intro s n h
    simp only [matchToks, Option.some.injEq] at h
    omega
  | cons t ts ih =>
    intro s n h
    cases t with
    | lit c =>
      cases s with
      | nil => simp [matchToks] at h
      | cons x xs =>
        simp only [matchToks] at h
        by_cases hx : x = c
        · rw [if_pos hx, Option.map_eq_some'] at h
          obtain ⟨m, hm, rfl⟩ := h
          have := ih xs m hm
          simp only [List.length_cons]
          omega
        · rw [if_neg hx] at h; exact absurd h (by simp)
    | ws =>
      cases s with
      | nil => simp [matchToks] at h
      | cons x xs =>
        simp only [matchToks] at h
        by_cases hx : isPySpace x = true
        · rw [if_pos hx, Option.map_eq_some'] at h
          obtain ⟨m, hm, rfl⟩ := h
          have h1 := ih _ m hm
          have h2 : (xs.drop (wsRun xs)).length = xs.length - wsRun xs := by simp
          have h3 := wsRun_le xs
          simp only [List.length_cons]
          omega
        · rw [if_neg hx] at h; exact absurd h (by simp)

theorem matchToks_litCount :
    ∀ (p : List PTok) (s : List Char) (n : Nat), matchToks p s = some n → litCount p ≤ n := by
  intro p
  induction p with
  | nil => intro s n h; simp [litCount]
  | cons t ts ih =>
    intro s n h
    cases t with
    | lit c =>
      cases s with
      | nil => simp [matchToks] at h
      | cons x xs =>
        simp only [matchToks] at h
        by_cases hx : x = c
        · rw [if_pos hx, Option.map_eq_some'] at h
          obtain ⟨m, hm, rfl⟩ := h
          have := ih xs m hm
          simp only [litCount]; omega
        · rw [if_neg hx] at h; exact absurd h (by simp)
    | ws =>
      cases s with
      | nil => simp [matchToks] at h
      | cons x xs =>
        simp only [matchToks] at h
        by_cases hx : isPySpace x = true
        · rw [if_pos hx, Option.map_eq_some'] at h
          obtain ⟨m, hm, rfl⟩ := h
          have := ih _ m hm
          simp only [litCount]; omega
        · rw [if_neg hx] at h; exact absurd h (by simp)

theorem subN_fuel (r : Rule) :
    ∀ (L : Nat) (s : List Char), s.length ≤ L → ∀ b b' : Nat,
      s.length < b → s.length < b' → subN r b s = subN r b' s := by
  intro L
  induction L with
  | zero =>
    intro s hs b b' hb hb'
    have : s = [] := List.length_eq_zero.mp (Nat.le_zero.mp hs)
    subst this
    cases b with
    | zero => omega
    | succ k => cases b' with
      | zero => omega
      | succ k' => rfl
  | succ L ih =>
    intro s hs b b' hb hb'
    cases s with
    | nil =>
      cases b with
      | zero => omega
      | succ k => cases b' with
        | zero => omega
        | succ k' => rfl
    | cons c cs =>
      cases b with
      | zero => simp at hb
      | succ k =>
        cases b' with
        | zero => simp at hb'
        | succ k' =>
          simp only [List.length_cons] at hs hb hb'
          cases hm : matchToks r.pat (c :: cs) with
          | none =>
            simp only [subN, hm]
            rw [ih cs (by omega) k k' (by omega) (by omega)]
          | some n =>
            cases n with
            | zero =>
              simp only [subN, hm]
              rw [ih cs (by omega) k k' (by omega) (by omega)]
            | succ m =>
              simp only [subN, hm]
              have hlen : ((c :: cs).drop (m + 1)).length = cs.length - m := by
                simp
              rw [ih ((c :: cs).drop (m + 1)) (by omega) k k' (by omega) (by omega)]

theorem sub_nil {r : Rule} (hp : r.pat ≠ []) : sub r [] = [] := by
  simp only [sub, List.length_nil, subN, matchToks_nil_of_ne hp]

theorem sub_cons_none {r : Rule} {c : Char} {cs : List Char}
    (hm : matchToks r.pat (c :: cs) = none) : sub r (c :: cs) = c :: sub r cs := by
  simp only [sub, List.length_cons, subN, hm]

theorem sub_cons_some_zero {r : Rule} {c : Char} {cs : List Char}
    (hm : matchToks r.pat (c :: cs) = some 0) :
    sub r (c :: cs) = instRepl r.repl [] ++ c :: sub r cs := by
  simp only [sub, List.length_cons, subN, hm]

theorem sub_cons_some {r : Rule} {c : Char} {cs : List Char} {n : Nat}
    (hm : matchToks r.pat (c :: cs) = some (n + 1)) :
    sub r (c :: cs) =
      instRepl r.repl ((c :: cs).take (n + 1)) ++ sub r ((c :: cs).drop (n + 1)) := by
  have hle : n + 1 ≤ (c :: cs).length := matchToks_le_length _ _ _ hm
  simp only [List.length_cons] at hle
  simp only [sub, List.length_cons, subN, hm]
  congr 1
  have hlen : ((c :: cs).drop (n + 1)).length = cs.length - n := by simp
  exact subN_fuel r (cs.length + 1) _ (by omega) _ _ (by omega) (by omega)

theorem instRepl_rlits (R : List Char) (m : List Char) :
    instRepl (R.map RTok.rlit) m = R := by
  induction R with
  | nil => rfl
  | cons c R ih => simp only [List.map_cons, instRepl, ih]

theorem instRepl_group_rlits (I : List Char) (m : List Char) :
    instRepl (RTok.rgroup :: I.map RTok.rlit) m = m ++ I := by
  simp only [instRepl, instRepl_rlits]

/-! ## Prefix and substring infrastructure -/

theorem leadsWith_nil_left (s : List Char) : leadsWith [] s = true := by
  cases s <;> rfl

theorem leadsWith_iff {t s : List Char} : leadsWith t s = true ↔ ∃ v, s = t ++ v := by
  induction t generalizing s with
  | nil => simp [leadsWith_nil_left]
  | cons a ts ih =>
    cases s with
    | nil => simp [leadsWith]
    | cons b ss =>
      simp only [leadsWith]
      by_cases h : a = b
      · subst h
        rw [if_pos rfl, ih]
        constructor
        · rintro ⟨v, rfl⟩; exact ⟨v, rfl⟩
        · rintro ⟨v, hv⟩
          exact ⟨v, by simpa using hv⟩
      · rw [if_neg h]
        constructor
        · intro hf; exact absurd hf (by simp)
        · rintro ⟨v, hv⟩
          simp only [List.cons_append] at hv
          injection hv with h1 _
          exact absurd h1.symm h

theorem leadsWith_append_self (t v : List Char) : leadsWith t (t ++ v) = true :=
  leadsWith_iff.mpr ⟨v, rfl⟩

theorem leadsWith_refl (t : List Char) : leadsWith t t = true := by
  simpa using leadsWith_append_self t []

theorem leadsWith_length_le {t s : List Char} (h : leadsWith t s = true) :
    t.length ≤ s.length := by
  obtain ⟨v, rfl⟩ := leadsWith_iff.mp h
  simp

theorem leadsWith_getElem? {t s : List Char} (h : leadsWith t s = true) :
    ∀ k, k < t.length → s[k]? = t[k]? := by
  obtain ⟨v, rfl⟩ := leadsWith_iff.mp h
  intro k hk
  exact List.getElem?_append_left hk

theorem leadsWith_of_getElem? :
    ∀ (t s : List Char), t.length ≤ s.length → (∀ k, k < t.length → s[k]? = t[k]?) →
      leadsWith t s = true := by
  intro t
  induction t with
  | nil => intro s _ _; exact leadsWith_nil_left s
  | cons a ts ih =>
    intro s hlen hchar
    cases s with
    | nil => simp at hlen
    | cons b ss =>
      have h0 := hchar 0 (by simp)
      simp only [List.getElem?_cons_zero, Option.some.injEq] at h0
      simp only [leadsWith, if_pos h0.symm]
      refine ih ss (by simpa using hlen) ?_
      intro k hk
      have := hchar (k + 1) (by simpa using Nat.succ_lt_succ hk)
      simpa using this

theorem leadsWith_append_left {t s : List Char} (v : List Char)
    (h : leadsWith t s = true) : leadsWith t (s ++ v) = true := by
  obtain ⟨w, rfl⟩ := leadsWith_iff.mp h
  rw [List.append_assoc]
  exact leadsWith_append_self t (w ++ v)

theorem occursIn_nil_left (s : List Char) : occursIn [] s = true := by
  cases s with
  | nil => rfl
  | cons c cs => simp [occursIn, leadsWith_nil_left]

theorem occursIn_of_leadsWith {t s : List Char} (h : leadsWith t s = true) :
    occursIn t s = true := by
  cases s with
  | nil =>
    obtain ⟨v, hv⟩ := leadsWith_iff.mp h
    have : t = [] := by
      cases t with
      | nil => rfl
      | cons a ts => simp at hv
    subst this; rfl
  | cons c cs => simp [occursIn, h]

theorem occursIn_cons {t cs : List Char} (c : Char) (h : occursIn t cs = true) :
    occursIn t (c :: cs) = true := by
  simp [occursIn, h]

theorem occursIn_iff {t s : List Char} :
    occursIn t s = true ↔ ∃ u v, s = u ++ t ++ v := by
  induction s with
  | nil =>
    simp only [occursIn, List.isEmpty_iff]
    constructor
    · rintro rfl; exact ⟨[], [], rfl⟩
    · rintro ⟨u, v, huv⟩
      have hlen : ([] : List Char).length = (u ++ t ++ v).length := congrArg List.length huv
      simp only [List.length_nil, List.length_append] at hlen
      exact List.length_eq_zero.mp (by omega)
  | cons c cs ih =>
    simp only [occursIn, Bool.or_eq_true]
    constructor
    · rintro (h | h)
      · obtain ⟨v, hv⟩ := leadsWith_iff.mp h
        exact ⟨[], v, by simpa using hv⟩
      · obtain ⟨u, v, huv⟩ := ih.mp h
        exact ⟨c :: u, v, by simp [huv]⟩
    · rintro ⟨u, v, huv⟩
      cases u with
      | nil =>
        left
        simp only [List.nil_append] at huv
        rw [huv]
        exact leadsWith_append_self t v
      | cons a u' =>
        right
        apply ih.mpr
        refine ⟨u', v, ?_⟩
        simpa using congrArg List.tail huv

theorem occursIn_append_right {t : List Char} (u : List Char) {v : List Char}
    (h : occursIn t v = true) : occursIn t (u ++ v) = true := by
  obtain ⟨x, y, rfl⟩ := occursIn_iff.mp h
  exact occursIn_iff.mpr ⟨u ++ x, y, by simp⟩

theorem occursIn_append_left {t u : List Char} (v : List Char)
    (h : occursIn t u = true) : occursIn t (u ++ v) = true := by
  obtain ⟨x, y, rfl⟩ := occursIn_iff.mp h
  exact occursIn_iff.mpr ⟨x, y ++ v, by simp⟩

theorem occursIn_trans {a b c : List Char} (hab : occursIn a b = true)
    (hbc : occursIn b c = true) : occursIn a c = true := by
  obtain ⟨u, v, rfl⟩ := occursIn_iff.mp hbc
  obtain ⟨x, y, rfl⟩ := occursIn_iff.mp hab
  exact occursIn_iff.mpr ⟨u ++ x, y ++ v, by simp⟩

theorem occursIn_iff_drop {t s : List Char} :
    occursIn t s = true ↔ ∃ j, leadsWith t (s.drop j) = true := by
  constructor
  · intro h
    obtain ⟨u, v, rfl⟩ := occursIn_iff.mp h
    refine ⟨u.length, ?_⟩
    rw [List.append_assoc, List.drop_left]
    exact leadsWith_append_self t v
  · rintro ⟨j, hj⟩
    obtain ⟨v, hv⟩ := leadsWith_iff.mp hj
    apply occursIn_iff.mpr
    exact ⟨s.take j, v, by rw [List.append_assoc, ← hv, List.take_append_drop]⟩

/-! ## Matching literal runs -/

theorem matchToks_lits_append (w : List Char) (ts : List PTok) :
    ∀ s : List Char,
      matchToks (w.map PTok.lit ++ ts) s =
        if leadsWith w s = true then
          (matchToks ts (s.drop w.length)).map (fun n => n + w.length)
        else none := by
  induction w with
  | nil =>
    intro s
    simp only [List.map_nil, List.nil_append, leadsWith_nil_left, if_pos, List.length_nil,
      List.drop_zero]
    cases matchToks ts s <;> simp
  | cons a w' ih =>
    intro s
    cases s with
    | nil =>
      have h1 : matchToks ((a :: w').map PTok.lit ++ ts) [] = none := by
        simp [matchToks]
      have h2 : leadsWith (a :: w') [] = false := rfl
      rw [h1, h2]
      simp
    | cons x xs =>
      by_cases hx : x = a
      · subst hx
        have hstep : matchToks ((x :: w').map PTok.lit ++ ts) (x :: xs) =
            (matchToks (w'.map PTok.lit ++ ts) xs).map (fun n => n + 1) := by
          simp [matchToks]
        have hlw : leadsWith (x :: w') (x :: xs) = leadsWith w' xs := by
          simp [leadsWith]
        rw [hstep, hlw, ih xs]
        by_cases hl : leadsWith w' xs = true
        · rw [if_pos hl, if_pos hl]
          simp only [List.length_cons, List.drop_succ_cons]
          cases matchToks ts (xs.drop w'.length) with
          | none => rfl
          | some n =>
            simp only [Option.map_map, Option.map_some', Option.some.injEq, Function.comp]
            all_goals omega
        · rw [if_neg hl, if_neg hl]
          rfl
      · have hax : ¬ a = x := fun hh => hx hh.symm
        have h1 : matchToks ((a :: w').map PTok.lit ++ ts) (x :: xs) = none := by
          simp [matchToks, hx]
        have h2 : leadsWith (a :: w') (x :: xs) = false := by
          simp [leadsWith, hax]
        rw [h1, h2]
        simp

theorem matchToks_lits (w : List Char) (s : List Char) :
    matchToks (w.map PTok.lit) s = if leadsWith w s = true then some w.length else none := by
  have h := matchToks_lits_append w [] s
  rw [List.append_nil] at h
  rw [h]
  by_cases hl : leadsWith w s = true
  · rw [if_pos hl, if_pos hl]
    simp [matchToks]
  · rw [if_neg hl, if_neg hl]

theorem litCount_lits (w : List Char) : litCount (w.map PTok.lit) = w.length := by
  induction w with
  | nil => rfl
  | cons a w ih => simp [litCount, ih]

/-! ## A rule with no match leaves the buffer unchanged -/

theorem sub_id_of_not_anyMatch {r : Rule} :
    ∀ s : List Char, anyMatch r.pat s = false → sub r s = s := by
  intro s
  induction s with
  | nil =>
    intro h
    simp only [anyMatch] at h
    have h1 : matchToks r.pat [] = none := Option.not_isSome_iff_eq_none.mp (by simp [h])
    simp only [sub, List.length_nil, subN, h1]
  | cons c cs ih =>
    intro h
    simp only [anyMatch, Bool.or_eq_false_iff] at h
    have h1 : matchToks r.pat (c :: cs) = none :=
      Option.not_isSome_iff_eq_none.mp (by simp [h.1])
    rw [sub_cons_none h1, ih h.2]

/-! ## A match is unchanged when the buffer is extended on the right -/

theorem takeWhile_append_of_lt {α : Type} (p : α → Bool) :
    ∀ l : List α, (l.takeWhile p).length < l.length →
      ∀ v, (l ++ v).takeWhile p = l.takeWhile p := by
  intro l
  induction l with
  | nil => intro h; simp at h
  | cons a l ih =>
    intro h v
    by_cases ha : p a = true
    · rw [List.takeWhile_cons, if_pos ha] at h
      rw [List.cons_append, List.takeWhile_cons, if_pos ha, List.takeWhile_cons, if_pos ha]
      simp only [List.length_cons] at h
      rw [ih (by omega) v]
    · rw [List.cons_append, List.takeWhile_cons, if_neg ha, List.takeWhile_cons, if_neg ha]

theorem wsRun_append_of_lt {l : List Char} (h : wsRun l < l.length) (v : List Char) :
    wsRun (l ++ v) = wsRun l := by
  unfold wsRun at *
  rw [takeWhile_append_of_lt isPySpace l h v]

theorem matchToks_append_right :
    ∀ (p : List PTok) (s v : List Char) (n : Nat), endsLit p = true →
      matchToks p s = some n → matchToks p (s ++ v) = some n := by
  intro p
  induction p with
  | nil => intro s v n h; simp [endsLit] at h
  | cons t ts ih =>
    intro s v n hend hm
    cases t with
    | lit c =>
      cases s with
      | nil => simp [matchToks] at hm
      | cons x xs =>
        simp only [matchToks, List.cons_append] at hm ⊢
        by_cases hx : x = c
        · rw [if_pos hx] at hm ⊢
          rw [Option.map_eq_some'] at hm
          obtain ⟨m, hm', rfl⟩ := hm
          cases ts with
          | nil =>
            simp only [matchToks, Option.some.injEq] at hm'
            subst hm'
            simp [matchToks]
          | cons t' ts' =>
            have hend' : endsLit (t' :: ts') = true := hend
            have hr : matchToks (t' :: ts') (xs.append v) = some m := ih _ v m hend' hm'
            rw [hr]
            rfl
        · rw [if_neg hx] at hm; exact absurd hm (by simp)
    | ws =>
      cases s with
      | nil => simp [matchToks] at hm
      | cons x xs =>
        simp only [matchToks, List.cons_append] at hm ⊢
        by_cases hx : isPySpace x = true
        · rw [if_pos hx] at hm ⊢
          rw [Option.map_eq_some'] at hm
          obtain ⟨m, hm', rfl⟩ := hm
          cases ts with
          | nil => simp [endsLit] at hend
          | cons t' ts' =>
            have hend' : endsLit (t' :: ts') = true := hend
            have hk := wsRun_le xs
            rcases Nat.lt_or_ge (wsRun xs) xs.length with hlt | hge
            · have h1 : wsRun (xs.append v) = wsRun xs := wsRun_append_of_lt hlt v
              have h2 : List.drop (wsRun xs) (xs.append v) = List.drop (wsRun xs) xs ++ v :=
                List.drop_append_of_le_length (le_of_lt hlt)
              rw [h1, h2]
              have hr : matchToks (t' :: ts') (List.drop (wsRun xs) xs ++ v) = some m :=
                ih _ v m hend' hm'
              rw [hr]
              rfl
            · exfalso
              have heq : wsRun xs = xs.length := le_antisymm hk hge
              rw [heq, List.drop_length] at hm'
              rw [matchToks_nil_of_ne (by simp)] at hm'
              exact absurd hm' (by simp)
        · rw [if_neg hx] at hm; exact absurd hm (by simp)

/-! ## The last literal run of a pattern pins down the tail of a match -/

theorem matchToks_suffix_lits :
    ∀ (ps : List PTok) (E : List Char) (s : List Char) (n : Nat),
      matchToks (ps ++ E.map PTok.lit) s = some n →
      E.length ≤ n ∧ ∀ l, l < E.length → s[n - 1 - l]? = E[E.length - 1 - l]? := by
  intro ps
  induction ps with
  | nil =>
    intro E s n hm
    rw [List.nil_append, matchToks_lits] at hm
    by_cases hl : leadsWith E s = true
    · rw [if_pos hl] at hm
      have hn : E.length = n := by injection hm
      subst hn
      refine ⟨le_refl _, ?_⟩
      intro l hlk
      exact leadsWith_getElem? hl (E.length - 1 - l) (by omega)
    · rw [if_neg hl] at hm; exact absurd hm (by simp)
  | cons t ts ih =>
    intro E s n hm
    cases t with
    | lit c =>
      cases s with
      | nil => simp [matchToks] at hm
      | cons x xs =>
        simp only [List.cons_append, matchToks] at hm
        by_cases hx : x = c
        · rw [if_pos hx, Option.map_eq_some'] at hm
          obtain ⟨m, hm', rfl⟩ := hm
          obtain ⟨hEle, hE⟩ := ih E xs m hm'
          refine ⟨by omega, ?_⟩
          intro l hl
          have hidx : m + 1 - 1 - l = (m - 1 - l) + 1 := by omega
          rw [hidx, List.getElem?_cons_succ]
          exact hE l hl
        · rw [if_neg hx] at hm; exact absurd hm (by simp)
    | ws =>
      cases s with
      | nil => simp [matchToks] at hm
      | cons x xs =>
        simp only [List.cons_append, matchToks] at hm
        by_cases hx : isPySpace x = true
        · rw [if_pos hx, Option.map_eq_some'] at hm
          obtain ⟨m, hm', rfl⟩ := hm
          obtain ⟨hEle, hE⟩ := ih E _ m hm'
          refine ⟨by omega, ?_⟩
          intro l hl
          have hidx : m + 1 + wsRun xs - 1 - l = (wsRun xs + (m - 1 - l)) + 1 := by omega
          rw [hidx, List.getElem?_cons_succ, ← List.getElem?_drop]
          exact hE l hl
        · rw [if_neg hx] at hm; exact absurd hm (by simp)

/-! ## A match exhibits every literal run of its pattern in the buffer -/

theorem occursIn_drop_imp {t s : List Char} (k : Nat)
    (h : occursIn t (s.drop k) = true) : occursIn t s = true := by
  obtain ⟨j, hj⟩ := occursIn_iff_drop.mp h
  rw [List.drop_drop] at hj
  exact occursIn_iff_drop.mpr ⟨k + j, hj⟩

theorem matchToks_inner_occursIn :
    ∀ (ps : List PTok) (w : List Char) (ts : List PTok) (s : List Char) (n : Nat),
      matchToks (ps ++ (w.map PTok.lit ++ ts)) s = some n → occursIn w s = true := by
  intro ps
  induction ps with
  | nil =>
    intro w ts s n hm
    rw [List.nil_append, matchToks_lits_append] at hm
    by_cases hl : leadsWith w s = true
    · exact occursIn_of_leadsWith hl
    · rw [if_neg hl] at hm; exact absurd hm (by simp)
  | cons t ps' ih =>
    intro w ts s n hm
    cases t with
    | lit c =>
      cases s with
      | nil => simp [matchToks] at hm
      | cons x xs =>
        simp only [List.cons_append, matchToks] at hm
        by_cases hx : x = c
        · rw [if_pos hx, Option.map_eq_some'] at hm
          obtain ⟨m, hm', rfl⟩ := hm
          exact occursIn_cons x (ih w ts xs m hm')
        · rw [if_neg hx] at hm; exact absurd hm (by simp)
    | ws =>
      cases s with
      | nil => simp [matchToks] at hm
      | cons x xs =>
        simp only [List.cons_append, matchToks] at hm
        by_cases hx : isPySpace x = true
        · rw [if_pos hx, Option.map_eq_some'] at hm
          obtain ⟨m, hm', rfl⟩ := hm
          exact occursIn_cons x (occursIn_drop_imp _ (ih w ts _ m hm'))
        · rw [if_neg hx] at hm; exact absurd hm (by simp)

/-! ## Positional helpers -/

theorem leadsWith_drop_getElem? {t s : List Char} {j : Nat}
    (h : leadsWith t (s.drop j) = true) : ∀ k, k < t.length → s[j + k]? = t[k]? := by
  intro k hk
  rw [← List.getElem?_drop]
  exact leadsWith_getElem? h k hk

theorem leadsWith_take {x s : List Char} {n : Nat} (h : leadsWith x s = true)
    (hn : x.length ≤ n) : leadsWith x (s.take n) = true := by
  obtain ⟨v, rfl⟩ := leadsWith_iff.mp h
  rw [List.take_append_eq_append_take, List.take_of_length_le hn]
  exact leadsWith_append_self x _

theorem occursIn_take_of {t s : List Char} {j n : Nat}
    (h : leadsWith t (s.drop j) = true) (hle : j + t.length ≤ n) :
    occursIn t (s.take n) = true := by
  have h1 := leadsWith_length_le h
  rw [List.length_drop] at h1
  apply occursIn_iff_drop.mpr
  refine ⟨j, ?_⟩
  apply leadsWith_of_getElem?
  · rw [List.length_drop, List.length_take]
    omega
  · intro k hk
    rw [List.getElem?_drop, List.getElem?_take_of_lt (by omega)]
    exact leadsWith_drop_getElem? h k hk

theorem pat_ne_nil_of_litCount {p : List PTok} (h : 1 ≤ litCount p) : p ≠ [] := by
  intro hp
  subst hp
  simp [litCount] at h

/-! ## An insertion rule (`\1` plus inserted text) cannot split a safe target -/

theorem occursIn_sub_ins_aux {r : Rule} {E I t : List Char} {ps : List PTok}
    (hpat : r.pat = ps ++ E.map PTok.lit)
    (hrepl : r.repl = RTok.rgroup :: I.map RTok.rlit)
    (hlit : 1 ≤ litCount r.pat)
    (hsafe : SplitSafe E t) :
    ∀ (L : Nat) (s : List Char), s.length ≤ L → ∀ i,
      leadsWith (t.drop i) s = true →
      leadsWith (t.drop i) (sub r s) = true ∨ occursIn t (sub r s) = true := by
  intro L
  induction L with
  | zero =>
    intro s hs i hlw
    have hsnil : s = [] := List.length_eq_zero.mp (Nat.le_zero.mp hs)
    subst hsnil
    rw [sub_nil (pat_ne_nil_of_litCount hlit)]
    exact Or.inl hlw
  | succ L ih =>
    intro s hs i hlw
    cases s with
    | nil =>
      rw [sub_nil (pat_ne_nil_of_litCount hlit)]
      exact Or.inl hlw
    | cons c cs =>
      by_cases hti : t.length ≤ i
      · rw [List.drop_eq_nil_of_le hti] at hlw ⊢
        exact Or.inl (leadsWith_nil_left _)
      · push_neg at hti
        have hdropi : t.drop i = t[i] :: t.drop (i + 1) := List.drop_eq_getElem_cons hti
        cases hm : matchToks r.pat (c :: cs) with
        | none =>
          rw [sub_cons_none hm]
          rw [hdropi] at hlw
          simp only [leadsWith] at hlw
          by_cases hci : t[i] = c
          · rw [if_pos hci] at hlw
            have hcs : cs.length ≤ L := by
              simp only [List.length_cons] at hs; omega
            rcases ih cs hcs (i + 1) hlw with hL | hR
            · left
              rw [hdropi]
              simp only [leadsWith, if_pos hci]
              exact hL
            · right
              exact occursIn_cons c hR
          · rw [if_neg hci] at hlw
            exact absurd hlw (by simp)
        | some n =>
          cases n with
          | zero =>
            exfalso
            have := matchToks_litCount _ _ _ hm
            omega
          | succ m =>
            rw [sub_cons_some hm, hrepl, instRepl_group_rlits]
            by_cases hcov : t.length - i ≤ m + 1
            · left
              have h1 : leadsWith (t.drop i) ((c :: cs).take (m + 1)) = true := by
                apply leadsWith_take hlw
                rw [List.length_drop]
                exact hcov
              rw [List.append_assoc]
              exact leadsWith_append_left _ h1
            · exfalso
              push_neg at hcov
              rw [hpat] at hm
              obtain ⟨hEle, hE⟩ := matchToks_suffix_lits ps E _ _ hm
              have hagree : agreeSW E t (i + m) := by
                intro l hlE hld
                have hlm : l ≤ m := by omega
                have hb : m - l < (t.drop i).length := by
                  rw [List.length_drop]; omega
                have hkey := leadsWith_getElem? hlw (m - l) hb
                rw [List.getElem?_drop] at hkey
                have hidx : i + (m - l) = i + m - l := by omega
                rw [hidx] at hkey
                have hEl := hE l hlE
                have hidx2 : m + 1 - 1 - l = m - l := by omega
                rw [hidx2] at hEl
                rw [← hkey]
                exact hEl
              exact hsafe (i + m) (by omega) hagree

theorem occursIn_sub_insertion {r : Rule} {E I t : List Char} {ps : List PTok}
    (hpat : r.pat = ps ++ E.map PTok.lit)
    (hrepl : r.repl = RTok.rgroup :: I.map RTok.rlit)
    (hlit : 1 ≤ litCount r.pat)
    (hsafe : SplitSafe E t) :
    ∀ s, occursIn t s = true → occursIn t (sub r s) = true := by
  suffices H : ∀ (L : Nat) (s : List Char), s.length ≤ L → occursIn t s = true →
      occursIn t (sub r s) = true by
    intro s hs
    exact H s.length s (le_refl _) hs
  intro L
  induction L with
  | zero =>
    intro s hs hocc
    have hsnil : s = [] := List.length_eq_zero.mp (Nat.le_zero.mp hs)
    subst hsnil
    have ht : t = [] := by
      simpa [occursIn, List.isEmpty_iff] using hocc
    subst ht
    exact occursIn_nil_left _
  | succ L ih =>
    intro s hs hocc
    by_cases ht : t = []
    · subst ht; exact occursIn_nil_left _
    cases s with
    | nil =>
      have : t = [] := by simpa [occursIn, List.isEmpty_iff] using hocc
      exact absurd this ht
    | cons c cs =>
      simp only [List.length_cons] at hs
      cases hm : matchToks r.pat (c :: cs) with
      | none =>
        rw [sub_cons_none hm]
        simp only [occursIn, Bool.or_eq_true] at hocc
        cases hocc with
        | inl hl =>
          rcases occursIn_sub_ins_aux hpat hrepl hlit hsafe (L + 1) (c :: cs)
              (by simpa using hs) 0 (by simpa using hl) with hL | hR
          · rw [sub_cons_none hm] at hL
            exact occursIn_of_leadsWith hL
          · rw [sub_cons_none hm] at hR
            exact hR
        | inr hr => exact occursIn_cons c (ih cs (by omega) hr)
      | some n =>
        cases n with
        | zero =>
          exfalso
          have := matchToks_litCount _ _ _ hm
          omega
        | succ m =>
          rw [sub_cons_some hm, hrepl, instRepl_group_rlits]
          obtain ⟨j, hj⟩ := occursIn_iff_drop.mp hocc
          have hjlt : j < (c :: cs).length := by
            by_contra hge
            push_neg at hge
            rw [List.drop_eq_nil_of_le hge] at hj
            obtain ⟨v, hv⟩ := leadsWith_iff.mp hj
            cases t with
            | nil => exact ht rfl
            | cons a ts => simp at hv
          have hm1le : m + 1 ≤ (c :: cs).length := matchToks_le_length _ _ _ hm
          rcases Nat.lt_or_ge j (m + 1) with hjm | hjm
          · rcases le_or_lt (j + t.length) (m + 1) with hcov | hcov
            · have h1 : occursIn t ((c :: cs).take (m + 1)) = true :=
                occursIn_take_of hj hcov
              rw [List.append_assoc]
              exact occursIn_append_left _ h1
            · exfalso
              rw [hpat] at hm
              obtain ⟨hEle, hE⟩ := matchToks_suffix_lits ps E _ _ hm
              have hagree : agreeSW E t (m - j) := by
                intro l hlE hld
                have hb : m - j - l < t.length := by omega
                have hkey := leadsWith_drop_getElem? hj (m - j - l) hb
                have hidx : j + (m - j - l) = m - l := by omega
                rw [hidx] at hkey
                have hEl := hE l hlE
                have hidx2 : m + 1 - 1 - l = m - l := by omega
                rw [hidx2] at hEl
                rw [← hkey]
                exact hEl
              exact hsafe (m - j) (by omega) hagree
          · have hocc2 : occursIn t ((c :: cs).drop (m + 1)) = true := by
              apply occursIn_iff_drop.mpr
              refine ⟨j - (m + 1), ?_⟩
              rw [List.drop_drop]
              have : m + 1 + (j - (m + 1)) = j := by omega
              rw [this]
              exact hj
            have hlen : ((c :: cs).drop (m + 1)).length ≤ L := by
              rw [List.length_drop]
              simp only [List.length_cons]
              omega
            exact occursIn_append_right _ (ih _ hlen hocc2)

/-! ## A pure literal-replacement rule cannot touch a non-overlapping target -/

theorem occursIn_sub_lit_aux {r : Rule} {P t : List Char}
    (hpat : r.pat = P.map PTok.lit) (hP : P ≠ [])
    (hno : ¬ CanOv P t) :
    ∀ (L : Nat) (s : List Char), s.length ≤ L → ∀ i,
      leadsWith (t.drop i) s = true →
      leadsWith (t.drop i) (sub r s) = true ∨ occursIn t (sub r s) = true := by
  have hpne : r.pat ≠ [] := by
    rw [hpat]
    simpa using hP
  intro L
  induction L with
  | zero =>
    intro s hs i hlw
    have hsnil : s = [] := List.length_eq_zero.mp (Nat.le_zero.mp hs)
    subst hsnil
    rw [sub_nil hpne]
    exact Or.inl hlw
  | succ L ih =>
    intro s hs i hlw
    cases s with
    | nil =>
      rw [sub_nil hpne]
      exact Or.inl hlw
    | cons c cs =>
      by_cases hti : t.length ≤ i
      · rw [List.drop_eq_nil_of_le hti] at hlw ⊢
        exact Or.inl (leadsWith_nil_left _)
      · push_neg at hti
        have hdropi : t.drop i = t[i] :: t.drop (i + 1) := List.drop_eq_getElem_cons hti
        cases hm : matchToks r.pat (c :: cs) with
        | none =>
          rw [sub_cons_none hm]
          rw [hdropi] at hlw
          simp only [leadsWith] at hlw
          by_cases hci : t[i] = c
          · rw [if_pos hci] at hlw
            have hcs : cs.length ≤ L := by
              simp only [List.length_cons] at hs; omega
            rcases ih cs hcs (i + 1) hlw with hL | hR
            · left
              rw [hdropi]
              simp only [leadsWith, if_pos hci]
              exact hL
            · right
              exact occursIn_cons c hR
          · rw [if_neg hci] at hlw
            exact absurd hlw (by simp)
        | some n =>
          exfalso
          rw [hpat, matchToks_lits] at hm
          by_cases hl : leadsWith P (c :: cs) = true
          · apply hno
            rcases Nat.eq_zero_or_pos i with hi0 | hipos
            · subst hi0
              left
              refine ⟨0, by (cases P with | nil => exact absurd rfl hP | cons a Ps => simp), ?_⟩
              intro k hkt hkP
              rw [Nat.zero_add] at hkP ⊢
              rw [← leadsWith_getElem? hl k hkP]
              rw [List.drop_zero] at hlw
              exact leadsWith_getElem? hlw k hkt
            · right
              refine ⟨i, hti, hipos, ?_⟩
              intro k hkP hkt
              have h1 := leadsWith_getElem? hl k hkP
              have hb : k < (t.drop i).length := by
                rw [List.length_drop]; omega
              have h2 := leadsWith_getElem? hlw k hb
              rw [List.getElem?_drop] at h2
              rw [← h2, ← h1]
          · rw [if_neg hl] at hm
            exact absurd hm (by simp)

theorem occursIn_sub_litRule {r : Rule} {P t : List Char}
    (hpat : r.pat = P.map PTok.lit) (hP : P ≠ [])
    (hno : ¬ CanOv P t) :
    ∀ s, occursIn t s = true → occursIn t (sub r s) = true := by
  have hpne : r.pat ≠ [] := by
    rw [hpat]
    simpa using hP
  suffices H : ∀ (L : Nat) (s : List Char), s.length ≤ L → occursIn t s = true →
      occursIn t (sub r s) = true by
    intro s hs
    exact H s.length s (le_refl _) hs
  intro L
  induction L with
  | zero =>
    intro s hs hocc
    have hsnil : s = [] := List.length_eq_zero.mp (Nat.le_zero.mp hs)
    subst hsnil
    have ht : t = [] := by
      simpa [occursIn, List.isEmpty_iff] using hocc
    subst ht
    exact occursIn_nil_left _
  | succ L ih =>
    intro s hs hocc
    by_cases ht : t = []
    · subst ht; exact occursIn_nil_left _
    cases s with
    | nil =>
      have : t = [] := by simpa [occursIn, List.isEmpty_iff] using hocc
      exact absurd this ht
    | cons c cs =>
      simp only [List.length_cons] at hs
      cases hm : matchToks r.pat (c :: cs) with
      | none =>
        rw [sub_cons_none hm]
        simp only [occursIn, Bool.or_eq_true] at hocc
        cases hocc with
        | inl hl =>
          rcases occursIn_sub_lit_aux hpat hP hno (L + 1) (c :: cs)
              (by simp; omega) 0 (by simpa using hl) with hL | hR
          · rw [sub_cons_none hm] at hL
            exact occursIn_of_leadsWith hL
          · rw [sub_cons_none hm] at hR
            exact hR
        | inr hr => exact occursIn_cons c (ih cs (by omega) hr)
      | some n =>
        have hmP := hm
        rw [hpat, matchToks_lits] at hmP
        by_cases hl : leadsWith P (c :: cs) = true
        · rw [if_pos hl] at hmP
          have hnP : n = P.length := by
            injection hmP with h
            exact h.symm
          subst hnP
          cases hn : P.length with
          | zero => exact absurd (List.length_eq_zero.mp hn) hP
          | succ m =>
            rw [hn] at hm
            rw [sub_cons_some hm]
            obtain ⟨j, hj⟩ := occursIn_iff_drop.mp hocc
            have hjlt : j < (c :: cs).length := by
              by_contra hge
              push_neg at hge
              rw [List.drop_eq_nil_of_le hge] at hj
              obtain ⟨v, hv⟩ := leadsWith_iff.mp hj
              cases t with
              | nil => exact ht rfl
              | cons a ts => simp at hv
            rcases Nat.lt_or_ge j (m + 1) with hjm | hjm
            · exfalso
              apply hno
              left
              refine ⟨j, by omega, ?_⟩
              intro k hkt hkP
              have h1 := leadsWith_getElem? hl (j + k) hkP
              have hb : k < t.length := hkt
              have h2 := leadsWith_drop_getElem? hj k hb
              rw [← h2, ← h1]
            · have hocc2 : occursIn t ((c :: cs).drop (m + 1)) = true := by
                apply occursIn_iff_drop.mpr
                refine ⟨j - (m + 1), ?_⟩
                rw [List.drop_drop]
                have heq : m + 1 + (j - (m + 1)) = j := by omega
                rw [heq]
                exact hj
              have hlen : ((c :: cs).drop (m + 1)).length ≤ L := by
                rw [List.length_drop]
                simp only [List.length_cons]
                omega
              exact occursIn_append_right _ (ih _ hlen hocc2)
        · rw [if_neg hl] at hmP
          exact absurd hmP (by simp)

/-! ## A literal rule that matches produces its replacement -/

theorem occursIn_repl_sub_litRule {r : Rule} {P R : List Char}
    (hpat : r.pat = P.map PTok.lit) (hrepl : r.repl = R.map RTok.rlit) (hP : P ≠ []) :
    ∀ s, occursIn P s = true → occursIn R (sub r s) = true := by
  intro s
  induction s with
  | nil =>
    intro h
    have : P = [] := by simpa [occursIn, List.isEmpty_iff] using h
    exact absurd this hP
  | cons c cs ih =>
    intro h
    cases hm : matchToks r.pat (c :: cs) with
    | some n =>
      cases n with
      | zero =>
        exfalso
        have h1 := matchToks_litCount _ _ _ hm
        rw [hpat, litCount_lits] at h1
        exact hP (List.length_eq_zero.mp (Nat.le_zero.mp h1))
      | succ m =>
        rw [sub_cons_some hm, hrepl, instRepl_rlits]
        exact occursIn_append_left _ (occursIn_of_leadsWith (leadsWith_refl R))
    | none =>
      rw [sub_cons_none hm]
      simp only [occursIn, Bool.or_eq_true] at h
      cases h with
      | inl hl =>
        exfalso
        rw [hpat, matchToks_lits, if_pos hl] at hm
        exact absurd hm (by simp)
      | inr hr => exact occursIn_cons c (ih hr)

/-! ## Decomposition of a match of a `\s+ A \s+ B \s+ C` pattern -/

theorem getElem?_append_offset {u v : List Char} (k : Nat) :
    (u ++ v)[u.length + k]? = v[k]? := by
  rw [List.getElem?_append_right (by omega)]
  congr 1
  omega

theorem concat_fact {pre X post t : List Char} (ht : t = pre ++ (X ++ post)) :
    ∀ k, k < X.length → t[pre.length + k]? = X[k]? := by
  subst ht
  intro k hk
  rw [getElem?_append_offset]
  exact List.getElem?_append_left hk

theorem getElem?_all_isSpace {u : List Char} (hu : ∀ c ∈ u, isPySpace c = true)
    {d : Nat} (hd : d < u.length) : (u[d]?.all isPySpace) = true := by
  rw [List.getElem?_eq_getElem hd, Option.all_some]
  exact hu _ (List.getElem_mem hd)

theorem take_length_takeWhile {α : Type} (p : α → Bool) (l : List α) :
    l.take ((l.takeWhile p).length) = l.takeWhile p := by
  induction l with
  | nil => rfl
  | cons a l ih =>
    by_cases ha : p a = true
    · rw [List.takeWhile_cons, if_pos ha, List.length_cons, List.take_succ_cons, ih]
    · rw [List.takeWhile_cons, if_neg ha, List.length_nil, List.take_zero]

theorem matchToks_ws_cons {ts : List PTok} {s : List Char} {n : Nat}
    (hm : matchToks (PTok.ws :: ts) s = some n) :
    ∃ u v m, s = u ++ v ∧ u ≠ [] ∧ (∀ c ∈ u, isPySpace c = true) ∧
      matchToks ts v = some m ∧ n = u.length + m := by
  cases s with
  | nil => simp [matchToks] at hm
  | cons x xs =>
    simp only [matchToks] at hm
    by_cases hx : isPySpace x = true
    · rw [if_pos hx, Option.map_eq_some'] at hm
      obtain ⟨m, hm', hn⟩ := hm
      refine ⟨x :: xs.take (wsRun xs), xs.drop (wsRun xs), m, ?_, by simp, ?_, hm', ?_⟩
      · rw [List.cons_append, List.take_append_drop]
      · intro c hc
        simp only [List.mem_cons] at hc
        rcases hc with rfl | hc
        · exact hx
        · unfold wsRun at hc
          rw [take_length_takeWhile] at hc
          exact List.mem_takeWhile_imp hc
      · have h1 := wsRun_le xs
        simp only [List.length_cons, List.length_take]
        omega
    · rw [if_neg hx] at hm; exact absurd hm (by simp)

theorem matchToks_lits_cons {w : List Char} {ts : List PTok} {s : List Char} {n : Nat}
    (hm : matchToks (w.map PTok.lit ++ ts) s = some n) :
    ∃ v m, s = w ++ v ∧ matchToks ts v = some m ∧ n = w.length + m := by
  rw [matchToks_lits_append] at hm
  by_cases hl : leadsWith w s = true
  · rw [if_pos hl, Option.map_eq_some'] at hm
    obtain ⟨m, hm', hn⟩ := hm
    obtain ⟨v, rfl⟩ := leadsWith_iff.mp hl
    rw [List.drop_left] at hm'
    exact ⟨v, m, rfl, hm', by omega⟩
  · rw [if_neg hl] at hm; exact absurd hm (by simp)

/-- A match of the pattern `\s+ A \s+ B \s+ C` at the front of `s`, read as
positional facts about the characters of `s`: three nonempty whitespace gaps
of lengths `k₁`, `k₂`, `k₃` interleaved with literal copies of `A`, `B`,
`C`. -/
theorem matchToks_shape3_decomp {A B C : List Char} {s : List Char} {n : Nat}
    (hm : matchToks
      (PTok.ws :: (A.map PTok.lit ++ PTok.ws :: (B.map PTok.lit ++ PTok.ws :: C.map PTok.lit)))
      s = some n) :
    ∃ k₁ k₂ k₃ : Nat,
      1 ≤ k₁ ∧ 1 ≤ k₂ ∧ 1 ≤ k₃ ∧
      n = k₁ + A.length + k₂ + B.length + k₃ + C.length ∧ n ≤ s.length ∧
      (∀ x, x < k₁ → (s[x]?.all isPySpace) = true) ∧
      (∀ k, k < A.length → s[k₁ + k]? = A[k]?) ∧
      (∀ x, k₁ + A.length ≤ x → x < k₁ + A.length + k₂ → (s[x]?.all isPySpace) = true) ∧
      (∀ k, k < B.length → s[k₁ + A.length + k₂ + k]? = B[k]?) ∧
      (∀ x, k₁ + A.length + k₂ + B.length ≤ x → x < k₁ + A.length + k₂ + B.length + k₃ →
        (s[x]?.all isPySpace) = true) ∧
      (∀ k, k < C.length → s[k₁ + A.length + k₂ + B.length + k₃ + k]? = C[k]?) := by
  have hnlen := matchToks_le_length _ _ _ hm
  obtain ⟨u₁, v₁, m₁, hs₁, hu₁ne, hu₁ws, hm₁, hn₁⟩ := matchToks_ws_cons hm
  obtain ⟨v₂, m₂, hv₁, hm₂, hn₂⟩ := matchToks_lits_cons hm₁
  obtain ⟨u₂, v₃, m₃, hv₂, hu₂ne, hu₂ws, hm₃, hn₃⟩ := matchToks_ws_cons hm₂
  obtain ⟨v₄, m₄, hv₃, hm₄, hn₄⟩ := matchToks_lits_cons hm₃
  obtain ⟨u₃, v₅, m₅, hv₄, hu₃ne, hu₃ws, hm₅, hn₅⟩ := matchToks_ws_cons hm₄
  rw [matchToks_lits] at hm₅
  by_cases hl₅ : leadsWith C v₅ = true
  · rw [if_pos hl₅] at hm₅
    have hm₅' : C.length = m₅ := by injection hm₅
    obtain ⟨v₆, hv₅⟩ := leadsWith_iff.mp hl₅
    refine ⟨u₁.length, u₂.length, u₃.length, ?_, ?_, ?_, ?_, ?_, ?_, ?_, ?_, ?_, ?_, ?_⟩
    · cases u₁ with | nil => exact absurd rfl hu₁ne | cons a l => simp
    · cases u₂ with | nil => exact absurd rfl hu₂ne | cons a l => simp
    · cases u₃ with | nil => exact absurd rfl hu₃ne | cons a l => simp
    · omega
    · exact hnlen
    · intro x hx
      have hfact : s[x]? = u₁[x]? := by
        rw [hs₁]; exact List.getElem?_append_left hx
      rw [hfact]
      exact getElem?_all_isSpace hu₁ws hx
    · intro k hk
      have hs' : s = u₁ ++ (A ++ (u₂ ++ (B ++ (u₃ ++ (C ++ v₆))))) := by
        rw [hs₁, hv₁, hv₂, hv₃, hv₄, hv₅]
        try simp [List.append_assoc]
      exact concat_fact hs' k hk
    · intro x hx1 hx2
      have hs' : s = (u₁ ++ A) ++ (u₂ ++ (B ++ (u₃ ++ (C ++ v₆)))) := by
        rw [hs₁, hv₁, hv₂, hv₃, hv₄, hv₅]
        try simp [List.append_assoc]
      have hb : x - u₁.length - A.length < u₂.length := by omega
      have hfact0 : s[(u₁ ++ A).length + (x - u₁.length - A.length)]? =
          u₂[x - u₁.length - A.length]? := by
        rw [hs', getElem?_append_offset]
        exact List.getElem?_append_left hb
      have hd : x = (u₁ ++ A).length + (x - u₁.length - A.length) := by
        simp only [List.length_append]
        omega
      have hswap : s[x]? = s[(u₁ ++ A).length + (x - u₁.length - A.length)]? :=
        congrArg (fun i => s[i]?) hd
      rw [hswap, hfact0]
      exact getElem?_all_isSpace hu₂ws hb
    · intro k hk
      have hs' : s = (u₁ ++ A ++ u₂) ++ (B ++ (u₃ ++ (C ++ v₆))) := by
        rw [hs₁, hv₁, hv₂, hv₃, hv₄, hv₅]
        try simp [List.append_assoc]
      have hd : u₁.length + A.length + u₂.length + k = (u₁ ++ A ++ u₂).length + k := by
        simp only [List.length_append]
      rw [hd]
      exact concat_fact hs' k hk
    · intro x hx1 hx2
      have hs' : s = (u₁ ++ A ++ u₂ ++ B) ++ (u₃ ++ (C ++ v₆)) := by
        rw [hs₁, hv₁, hv₂, hv₃, hv₄, hv₅]
        try simp [List.append_assoc]
      have hb : x - u₁.length - A.length - u₂.length - B.length < u₃.length := by omega
      have hfact0 : s[(u₁ ++ A ++ u₂ ++ B).length +
          (x - u₁.length - A.length - u₂.length - B.length)]? =
          u₃[x - u₁.length - A.length - u₂.length - B.length]? := by
        rw [hs', getElem?_append_offset]
        exact List.getElem?_append_left hb
      have hd : x = (u₁ ++ A ++ u₂ ++ B).length +
          (x - u₁.length - A.length - u₂.length - B.length) := by
        simp only [List.length_append]
        omega
      have hswap : s[x]? = s[(u₁ ++ A ++ u₂ ++ B).length +
          (x - u₁.length - A.length - u₂.length - B.length)]? :=
        congrArg (fun i => s[i]?) hd
      rw [hswap, hfact0]
      exact getElem?_all_isSpace hu₃ws hb
    · intro k hk
      have hs' : s = (u₁ ++ A ++ u₂ ++ B ++ u₃) ++ (C ++ v₆) := by
        rw [hs₁, hv₁, hv₂, hv₃, hv₄, hv₅]
        try simp [List.append_assoc]
      have hd : u₁.length + A.length + u₂.length + B.length + u₃.length + k =
          (u₁ ++ A ++ u₂ ++ B ++ u₃).length + k := by
        simp only [List.length_append]
      rw [hd]
      exact concat_fact hs' k hk
  · rw [if_neg hl₅] at hm₅
    exact absurd hm₅ (by simp)

/-! ## Anchoring: a `\s+ A \s+ B \s+ C` match that reaches into an
occurrence of the canonical block `W ++ A ++ G₂ ++ B ++ G₃ ++ C` ends
exactly at the end of that occurrence -/

theorem getElem?_zero_mem {l : List Char} {a : Char} (h : l[0]? = some a) : a ∈ l := by
  cases l with
  | nil => simp at h
  | cons b bs =>
    simp only [List.getElem?_cons_zero, Option.some.injEq] at h
    rw [← h]
    exact List.mem_cons_self b bs

theorem mem_take_one {l : List Char} {a : Char} (h : l[0]? = some a) : a ∈ l.take 1 := by
  cases l with
  | nil => simp at h
  | cons b bs =>
    simp only [List.getElem?_cons_zero, Option.some.injEq] at h
    rw [← h]
    simp

theorem mem_last_drop {l : List Char} {c : Char} (h : l[l.length - 1]? = some c) :
    c ∈ l.drop (l.length - 1) := by
  have h' : (l.drop (l.length - 1))[0]? = some c := by
    rw [List.getElem?_drop, Nat.add_zero]
    exact h
  exact getElem?_zero_mem h'

theorem shape3_match_anchor
    {A B C W G₂ G₃ t s : List Char} {n j : Nat}
    (hT : t = W ++ A ++ G₂ ++ B ++ G₃ ++ C)
    (hWne : W ≠ [])
    (hWws : ∀ c ∈ W, isPySpace c = true)
    (hG₂ws : ∀ c ∈ G₂, isPySpace c = true)
    (hG₃ws : ∀ c ∈ G₃, isPySpace c = true)
    (hw0 : ∀ w ∈ W.take 1, w ∉ A ∧ w ∉ B ∧ w ∉ C)
    (hA0 : ∀ a ∈ A.take 1, isPySpace a = false)
    (hB0 : ∀ b ∈ B.take 1, isPySpace b = false)
    (hC0 : ∀ c ∈ C.take 1, isPySpace c = false)
    (hAne : A ≠ []) (hBne : B ≠ []) (hCne : C ≠ [])
    (hClast : ∀ c ∈ C.drop (C.length - 1), isPySpace c = false)
    (hBmis : ¬ Overlay t B W.length)
    (hCmis : ¬ Overlay t C W.length)
    (hm : matchToks
      (PTok.ws :: (A.map PTok.lit ++ PTok.ws :: (B.map PTok.lit ++ PTok.ws :: C.map PTok.lit)))
      s = some n)
    (hocc : leadsWith t (s.drop j) = true)
    (hjn : j < n) :
    n = j + t.length := by
  obtain ⟨k₁, k₂, k₃, hk₁, hk₂, hk₃, hn, hns, hws1, hfA, hws2, hfB, hws3, hfC⟩ :=
    matchToks_shape3_decomp hm
  have hWlen : 1 ≤ W.length := List.length_pos.mpr hWne
  have hAlen : 1 ≤ A.length := List.length_pos.mpr hAne
  have hBlen : 1 ≤ B.length := List.length_pos.mpr hBne
  have hClen : 1 ≤ C.length := List.length_pos.mpr hCne
  have hTlen : t.length =
      W.length + A.length + G₂.length + B.length + G₃.length + C.length := by
    rw [hT]; simp only [List.length_append]; try omega
  have htW : ∀ k, k < W.length → t[k]? = W[k]? := by
    intro k hk
    rw [hT]
    rw [List.getElem?_append_left (by simp only [List.length_append]; omega)]
    rw [List.getElem?_append_left (by simp only [List.length_append]; omega)]
    rw [List.getElem?_append_left (by simp only [List.length_append]; omega)]
    rw [List.getElem?_append_left (by simp only [List.length_append]; omega)]
    rw [List.getElem?_append_left hk]
  have htA : ∀ k, k < A.length → t[W.length + k]? = A[k]? :=
    @concat_fact W A (G₂ ++ (B ++ (G₃ ++ C))) t (by rw [hT]; simp [List.append_assoc])
  have htG₂0 := @concat_fact (W ++ A) G₂ (B ++ (G₃ ++ C)) t
    (by rw [hT]; simp [List.append_assoc])
  have htG₂ : ∀ k, k < G₂.length → t[W.length + A.length + k]? = G₂[k]? := by
    intro k hk
    have := htG₂0 k hk
    simpa only [List.length_append] using this
  have htB0 := @concat_fact (W ++ A ++ G₂) B (G₃ ++ C) t
    (by rw [hT]; simp [List.append_assoc])
  have htB : ∀ k, k < B.length → t[W.length + A.length + G₂.length + k]? = B[k]? := by
    intro k hk
    have := htB0 k hk
    simpa only [List.length_append] using this
  have htG₃0 := @concat_fact (W ++ A ++ G₂ ++ B) G₃ C t
    (by rw [hT]; simp [List.append_assoc])
  have htG₃ : ∀ k, k < G₃.length →
      t[W.length + A.length + G₂.length + B.length + k]? = G₃[k]? := by
    intro k hk
    have := htG₃0 k hk
    simpa only [List.length_append] using this
  have htC0 := @concat_fact (W ++ A ++ G₂ ++ B ++ G₃) C [] t
    (by rw [hT]; simp [List.append_assoc])
  have htC : ∀ k, k < C.length →
      t[W.length + A.length + G₂.length + B.length + G₃.length + k]? = C[k]? := by
    intro k hk
    have := htC0 k hk
    simpa only [List.length_append] using this
  have hoccG : ∀ y, y < t.length → s[j + y]? = t[y]? := leadsWith_drop_getElem? hocc
  -- Step A: the match extends strictly beyond the whitespace prefix `W`.
  have hCLlt : C.length - 1 < C.length := by omega
  have hslast : s[n - 1]? = C[C.length - 1]? := by
    have h := hfC (C.length - 1) hCLlt
    have hidx : k₁ + A.length + k₂ + B.length + k₃ + (C.length - 1) = n - 1 := by omega
    rwa [hidx] at h
  have hstepA : j + W.length < n := by
    by_contra hge
    push_neg at hge
    have hy : n - 1 - j < W.length := by omega
    have h1 : s[n - 1]? = t[n - 1 - j]? := by
      have h := hoccG (n - 1 - j) (by omega)
      have hidx : j + (n - 1 - j) = n - 1 := by omega
      rwa [hidx] at h
    have h2 : t[n - 1 - j]? = W[n - 1 - j]? := htW _ hy
    obtain ⟨wc, hwc⟩ : ∃ wc, W[n - 1 - j]? = some wc :=
      ⟨_, List.getElem?_eq_getElem hy⟩
    have hwcws : isPySpace wc = true := by
      have h := getElem?_all_isSpace hWws hy
      rw [hwc, Option.all_some] at h
      exact h
    have hI : C[C.length - 1]? = some wc := by rw [← hslast, h1, h2, hwc]
    have h := hClast wc (mem_last_drop hI)
    rw [hwcws] at h
    exact absurd h (by simp)
  -- Step B: the position right after the `W`-part of the occurrence holds a
  -- non-whitespace character, so it lies inside one of the literal copies.
  have hx₀lt : j + W.length < n := hstepA
  have hsx₀ : s[j + W.length]? = A[0]? := by
    have h1 := hoccG W.length (by omega)
    have h2 := htA 0 hAlen
    rw [Nat.add_zero] at h2
    rw [h1, h2]
  have hsx₀ns : ¬ ((s[j + W.length]?.all isPySpace) = true) := by
    rw [hsx₀]
    obtain ⟨a0, ha0⟩ : ∃ a0, A[0]? = some a0 :=
      ⟨_, List.getElem?_eq_getElem (by omega)⟩
    rw [ha0, Option.all_some, hA0 a0 (mem_take_one ha0)]
    simp
  have hx₀copy : (k₁ ≤ j + W.length ∧ j + W.length < k₁ + A.length) ∨
      (k₁ + A.length + k₂ ≤ j + W.length ∧
        j + W.length < k₁ + A.length + k₂ + B.length) ∨
      (k₁ + A.length + k₂ + B.length + k₃ ≤ j + W.length ∧ j + W.length < n) := by
    rcases Nat.lt_or_ge (j + W.length) k₁ with h1 | h1
    · exact absurd (hws1 _ h1) hsx₀ns
    rcases Nat.lt_or_ge (j + W.length) (k₁ + A.length) with h2 | h2
    · exact Or.inl ⟨h1, h2⟩
    rcases Nat.lt_or_ge (j + W.length) (k₁ + A.length + k₂) with h3 | h3
    · exact absurd (hws2 _ h2 h3) hsx₀ns
    rcases Nat.lt_or_ge (j + W.length) (k₁ + A.length + k₂ + B.length) with h4 | h4
    · exact Or.inr (Or.inl ⟨h3, h4⟩)
    rcases Nat.lt_or_ge (j + W.length) (k₁ + A.length + k₂ + B.length + k₃) with h5 | h5
    · exact absurd (hws3 _ h4 h5) hsx₀ns
    · exact Or.inr (Or.inr ⟨h5, hx₀lt⟩)
  -- Step C: that literal copy starts exactly at this position.
  have hcopy_start : ∀ (X : List Char) (p : Nat), X ≠ [] →
      (∀ k, k < X.length → s[p + k]? = X[k]?) →
      (∀ w, W[0]? = some w → w ∉ X) →
      (∀ a, X[0]? = some a → isPySpace a = false) →
      p ≤ j + W.length → j + W.length < p + X.length → p = j + W.length := by
    intro X p hXne hXf hwX hX0 hple hxlt
    have hXlen : 1 ≤ X.length := List.length_pos.mpr hXne
    by_contra hne
    have hplt : p < j + W.length := by omega
    rcases Nat.lt_or_ge p j with hpj | hpj
    · have hjin : j - p < X.length := by omega
      have h1 := hXf (j - p) hjin
      have hidx : p + (j - p) = j := by omega
      rw [hidx] at h1
      have h2 := hoccG 0 (by omega)
      rw [Nat.add_zero] at h2
      have h3 := htW 0 (by omega)
      obtain ⟨w0, hw0'⟩ : ∃ w0, W[0]? = some w0 :=
        ⟨_, List.getElem?_eq_getElem (by omega)⟩
      have h4 : X[j - p]? = some w0 := by rw [← h1, h2, h3, hw0']
      have hmem : w0 ∈ X := by
        rw [List.getElem?_eq_getElem hjin] at h4
        injection h4 with hh
        rw [← hh]
        exact List.getElem_mem hjin
      exact absurd hmem (hwX w0 hw0')
    · have hpw : p - j < W.length := by omega
      have h1 := hoccG (p - j) (by omega)
      have hidx : j + (p - j) = p := by omega
      rw [hidx] at h1
      have h2 := htW _ hpw
      have h3 := hXf 0 hXlen
      rw [Nat.add_zero] at h3
      obtain ⟨w0, hw0'⟩ : ∃ w0, W[p - j]? = some w0 :=
        ⟨_, List.getElem?_eq_getElem hpw⟩
      have hws : isPySpace w0 = true := by
        have h := getElem?_all_isSpace hWws hpw
        rw [hw0', Option.all_some] at h
        exact h
      have h4 : X[0]? = some w0 := by rw [← h3, h1, h2, hw0']
      have h5 := hX0 w0 h4
      rw [hws] at h5
      exact absurd h5 (by simp)
  rcases hx₀copy with ⟨hle, hlt⟩ | ⟨hle, hlt⟩ | ⟨hle, hlt⟩
  · -- the copy of `A` starts at the occurrence's `A`; the rest is forced.
    have hk₁x : k₁ = j + W.length :=
      hcopy_start A k₁ hAne hfA (fun w hw => (hw0 w (mem_take_one hw)).1)
        (fun a ha => hA0 a (mem_take_one ha)) hle hlt
    have hk₂eq : k₂ = G₂.length := by
      rcases lt_trichotomy k₂ G₂.length with hcase | hcase | hcase
      · exfalso
        have hbnd : W.length + A.length + k₂ < t.length := by omega
        have h1 := hoccG (W.length + A.length + k₂) hbnd
        have hidx : j + (W.length + A.length + k₂) = k₁ + A.length + k₂ := by omega
        rw [hidx] at h1
        have h2 := htG₂ k₂ hcase
        have h3 := hfB 0 hBlen
        rw [Nat.add_zero] at h3
        obtain ⟨g, hg⟩ : ∃ g, G₂[k₂]? = some g :=
          ⟨_, List.getElem?_eq_getElem hcase⟩
        have hgws : isPySpace g = true := by
          have h := getElem?_all_isSpace hG₂ws hcase
          rw [hg, Option.all_some] at h
          exact h
        have h4 : B[0]? = some g := by rw [← h3, h1, h2, hg]
        have h5 := hB0 g (mem_take_one h4)
        rw [hgws] at h5
        exact absurd h5 (by simp)
      · exact hcase
      · exfalso
        have hbnd : W.length + A.length + G₂.length < t.length := by omega
        have h1 := hoccG (W.length + A.length + G₂.length) hbnd
        have hidx : j + (W.length + A.length + G₂.length) =
            k₁ + A.length + G₂.length := by omega
        rw [hidx] at h1
        have h2 := htB 0 hBlen
        rw [Nat.add_zero] at h2
        have h3 := hws2 (k₁ + A.length + G₂.length) (by omega) (by omega)
        rw [h1, h2] at h3
        obtain ⟨b0, hb0⟩ : ∃ b0, B[0]? = some b0 :=
          ⟨_, List.getElem?_eq_getElem (by omega)⟩
        rw [hb0, Option.all_some] at h3
        have h5 := hB0 b0 (mem_take_one hb0)
        rw [h3] at h5
        exact absurd h5 (by simp)
    have hk₃eq : k₃ = G₃.length := by
      rcases lt_trichotomy k₃ G₃.length with hcase | hcase | hcase
      · exfalso
        have hbnd : W.length + A.length + G₂.length + B.length + k₃ < t.length := by
          omega
        have h1 := hoccG (W.length + A.length + G₂.length + B.length + k₃) hbnd
        have hidx : j + (W.length + A.length + G₂.length + B.length + k₃) =
            k₁ + A.length + k₂ + B.length + k₃ := by omega
        rw [hidx] at h1
        have h2 := htG₃ k₃ hcase
        have h3 := hfC 0 hClen
        rw [Nat.add_zero] at h3
        obtain ⟨g, hg⟩ : ∃ g, G₃[k₃]? = some g :=
          ⟨_, List.getElem?_eq_getElem hcase⟩
        have hgws : isPySpace g = true := by
          have h := getElem?_all_isSpace hG₃ws hcase
          rw [hg, Option.all_some] at h
          exact h
        have h4 : C[0]? = some g := by rw [← h3, h1, h2, hg]
        have h5 := hC0 g (mem_take_one h4)
        rw [hgws] at h5
        exact absurd h5 (by simp)
      · exact hcase
      · exfalso
        have hbnd : W.length + A.length + G₂.length + B.length + G₃.length <
            t.length := by omega
        have h1 := hoccG (W.length + A.length + G₂.length + B.length + G₃.length) hbnd
        have hidx : j + (W.length + A.length + G₂.length + B.length + G₃.length) =
            k₁ + A.length + k₂ + B.length + G₃.length := by omega
        rw [hidx] at h1
        have h2 := htC 0 hClen
        rw [Nat.add_zero] at h2
        have h3 := hws3 (k₁ + A.length + k₂ + B.length + G₃.length)
          (by omega) (by omega)
        rw [h1, h2] at h3
        obtain ⟨c0, hc0⟩ : ∃ c0, C[0]? = some c0 :=
          ⟨_, List.getElem?_eq_getElem (by omega)⟩
        rw [hc0, Option.all_some] at h3
        have h5 := hC0 c0 (mem_take_one hc0)
        rw [h3] at h5
        exact absurd h5 (by simp)
    omega
  · -- a copy of `B` would start right after the `W`-part: contradiction.
    exfalso
    have hp₂x : k₁ + A.length + k₂ = j + W.length :=
      hcopy_start B (k₁ + A.length + k₂) hBne hfB
        (fun w hw => (hw0 w (mem_take_one hw)).2.1)
        (fun b hb => hB0 b (mem_take_one hb)) hle hlt
    apply hBmis
    intro k hkB hkt
    have h1 := hoccG (W.length + k) hkt
    have hidx : j + (W.length + k) = k₁ + A.length + k₂ + k := by omega
    rw [hidx] at h1
    have h2 := hfB k hkB
    rw [← h1]
    exact h2
  · -- a copy of `C` would start right after the `W`-part: contradiction.
    exfalso
    have hp₃x : k₁ + A.length + k₂ + B.length + k₃ = j + W.length :=
      hcopy_start C (k₁ + A.length + k₂ + B.length + k₃) hCne hfC
        (fun w hw => (hw0 w (mem_take_one hw)).2.2)
        (fun c0 hc0 => hC0 c0 (mem_take_one hc0)) hle (by omega)
    apply hCmis
    intro k hkC hkt
    have h1 := hoccG (W.length + k) hkt
    have hidx : j + (W.length + k) = k₁ + A.length + k₂ + B.length + k₃ + k := by
      omega
    rw [hidx] at h1
    have h2 := hfC k hkC
    rw [← h1]
    exact h2

/-! ## The canonical block receives the inserted text right after itself -/

theorem occursIn_sub_shape3_insert
    {r : Rule} {A B C W G₂ G₃ t I : List Char}
    (hpat : r.pat =
      PTok.ws :: (A.map PTok.lit ++ PTok.ws :: (B.map PTok.lit ++ PTok.ws :: C.map PTok.lit)))
    (hrepl : r.repl = RTok.rgroup :: I.map RTok.rlit)
    (hT : t = W ++ A ++ G₂ ++ B ++ G₃ ++ C)
    (hWne : W ≠ [])
    (hWws : ∀ c ∈ W, isPySpace c = true)
    (hG₂ws : ∀ c ∈ G₂, isPySpace c = true)
    (hG₃ws : ∀ c ∈ G₃, isPySpace c = true)
    (hw0 : ∀ w ∈ W.take 1, w ∉ A ∧ w ∉ B ∧ w ∉ C)
    (hA0 : ∀ a ∈ A.take 1, isPySpace a = false)
    (hB0 : ∀ b ∈ B.take 1, isPySpace b = false)
    (hC0 : ∀ c ∈ C.take 1, isPySpace c = false)
    (hAne : A ≠ []) (hBne : B ≠ []) (hCne : C ≠ [])
    (hClast : ∀ c ∈ C.drop (C.length - 1), isPySpace c = false)
    (hBmis : ¬ Overlay t B W.length)
    (hCmis : ¬ Overlay t C W.length)
    (hmT : matchToks r.pat t = some t.length)
    (hEnds : endsLit r.pat = true)
    (hlit : 1 ≤ litCount r.pat) :
    ∀ s, occursIn t s = true →
      occursIn ((A ++ G₂ ++ B ++ G₃ ++ C) ++ I) (sub r s) = true := by
  have htne : t ≠ [] := by
    intro hnil
    rw [hT] at hnil
    cases W with
    | nil => exact hWne rfl
    | cons a l => simp at hnil
  suffices H : ∀ (L : Nat) (s : List Char), s.length ≤ L → occursIn t s = true →
      occursIn ((A ++ G₂ ++ B ++ G₃ ++ C) ++ I) (sub r s) = true by
    intro s hs
    exact H s.length s (le_refl _) hs
  intro L
  induction L with
  | zero =>
    intro s hs hocc
    have hsnil : s = [] := List.length_eq_zero.mp (Nat.le_zero.mp hs)
    subst hsnil
    exact absurd (by simpa [occursIn, List.isEmpty_iff] using hocc) htne
  | succ L ih =>
    intro s hs hocc
    cases s with
    | nil => exact absurd (by simpa [occursIn, List.isEmpty_iff] using hocc) htne
    | cons c cs =>
      simp only [List.length_cons] at hs
      obtain ⟨j, hj⟩ := occursIn_iff_drop.mp hocc
      have hjlt : j < (c :: cs).length := by
        by_contra hge
        push_neg at hge
        rw [List.drop_eq_nil_of_le hge] at hj
        obtain ⟨v, hv⟩ := leadsWith_iff.mp hj
        cases t with
        | nil => exact htne rfl
        | cons a ts => simp at hv
      simp only [List.length_cons] at hjlt
      cases hm : matchToks r.pat (c :: cs) with
      | none =>
        rcases Nat.eq_zero_or_pos j with rfl | hjpos
        · exfalso
          rw [List.drop_zero] at hj
          obtain ⟨v, hv⟩ := leadsWith_iff.mp hj
          have hstab := matchToks_append_right r.pat t v t.length hEnds hmT
          rw [← hv, hm] at hstab
          exact absurd hstab (by simp)
        · rw [sub_cons_none hm]
          have hdropj : (c :: cs).drop j = cs.drop (j - 1) := by
            cases j with
            | zero => omega
            | succ j' => simp [List.drop_succ_cons]
          rw [hdropj] at hj
          have hocc' : occursIn t cs = true := occursIn_iff_drop.mpr ⟨j - 1, hj⟩
          exact occursIn_cons c (ih cs (by omega) hocc')
      | some n =>
        cases n with
        | zero =>
          exfalso
          have := matchToks_litCount _ _ _ hm
          omega
        | succ m =>
          rw [sub_cons_some hm, hrepl, instRepl_group_rlits]
          rcases Nat.lt_or_ge j (m + 1) with hjm | hjm
          · have hm' := hm
            rw [hpat] at hm'
            have hanch : m + 1 = j + t.length :=
              shape3_match_anchor hT hWne hWws hG₂ws hG₃ws hw0 hA0 hB0 hC0
                hAne hBne hCne hClast hBmis hCmis hm' hj hjm
            obtain ⟨v, hv⟩ := leadsWith_iff.mp hj
            have hdecomp : (c :: cs) = (c :: cs).take j ++ (t ++ v) := by
              rw [← hv, List.take_append_drop]
            have hlenj : ((c :: cs).take j).length = j := by
              rw [List.length_take]
              simp only [List.length_cons]
              omega
            have htake : (c :: cs).take (m + 1) = (c :: cs).take j ++ t := by
              conv_lhs => rw [hdecomp]
              rw [List.take_append_eq_append_take, hlenj, hanch]
              rw [List.take_take]
              have h1 : (j + t.length) ⊓ j = j := by
                rw [Nat.min_def]
                split <;> omega
              rw [h1]
              have h2 : j + t.length - j = t.length := by omega
              rw [h2, List.take_left]
            rw [htake]
            apply occursIn_iff.mpr
            refine ⟨(c :: cs).take j ++ W, sub r ((c :: cs).drop (m + 1)), ?_⟩
            rw [hT]
            simp [List.append_assoc]
          · have hocc2 : occursIn t ((c :: cs).drop (m + 1)) = true := by
              apply occursIn_iff_drop.mpr
              refine ⟨j - (m + 1), ?_⟩
              rw [List.drop_drop]
              have heq : m + 1 + (j - (m + 1)) = j := by omega
              rw [heq]
              exact hj
            have hlen : ((c :: cs).drop (m + 1)).length ≤ L := by
              rw [List.length_drop]
              simp only [List.length_cons]
              omega
            exact occursIn_append_right _ (ih _ hlen hocc2)

/-! ## No-split: under `NoSplit3` no match can end strictly inside an
occurrence of `t` -/

theorem shape3_noSplit_contra_main
    {A B C t s : List Char} {n j : Nat}
    (hm : matchToks
      (PTok.ws :: (A.map PTok.lit ++ PTok.ws :: (B.map PTok.lit ++ PTok.ws :: C.map PTok.lit)))
      s = some n)
    (hocc : leadsWith t (s.drop j) = true)
    (hj1 : j < n) (hj2 : n < j + t.length)
    (hnos : NoSplit3 A B C t) : False := by
  obtain ⟨k₁, k₂, k₃, hk₁, hk₂, hk₃, hn, hnsl, hws1, hfA, hws2, hfB, hws3, hfC⟩ :=
    matchToks_shape3_decomp hm
  have hoccG := leadsWith_drop_getElem? hocc
  have hδlt : n - 1 - j < t.length - 1 := by omega
  have hagC : agreeSW C t (n - 1 - j) := by
    intro l hl hld
    have hb : n - 1 - j - l < t.length := by omega
    have h1 := hoccG (n - 1 - j - l) hb
    have hidx : j + (n - 1 - j - l) = n - 1 - l := by omega
    rw [hidx] at h1
    have h2 := hfC (C.length - 1 - l) (by omega)
    have hidx2 : k₁ + A.length + k₂ + B.length + k₃ + (C.length - 1 - l) =
        n - 1 - l := by omega
    rw [hidx2] at h2
    rw [← h1]
    exact h2
  obtain ⟨hCle, hnB⟩ := hnos (n - 1 - j) hδlt hagC
  apply hnB
  unfold BadB
  rcases Nat.lt_or_ge j (k₁ + A.length + k₂ + B.length) with hq₂ | hq₂
  · right
    refine ⟨k₁ + A.length + k₂ + B.length - j, by omega, by omega, ?_, ?_, ?_⟩
    · intro l hl hld
      have hb : k₁ + A.length + k₂ + B.length - j - 1 - l < t.length := by omega
      have h1 := hoccG _ hb
      have hidx : j + (k₁ + A.length + k₂ + B.length - j - 1 - l) =
          k₁ + A.length + k₂ + (B.length - 1 - l) := by omega
      rw [hidx] at h1
      have h2 := hfB (B.length - 1 - l) (by omega)
      rw [← h1]
      exact h2
    · intro x hx1 hx2
      have hb : x < t.length := by omega
      have h1 := hoccG x hb
      rw [← h1]
      exact hws3 (j + x) (by omega) (by omega)
    · rcases Nat.lt_or_ge j (k₁ + A.length + k₂) with hp₂ | hp₂
      · right
        have hbs : k₁ + A.length + k₂ + B.length - j - B.length =
            k₁ + A.length + k₂ - j := by omega
        rw [hbs]
        unfold BadA
        rcases Nat.lt_or_ge j (k₁ + A.length) with hq₁ | hq₁
        · right
          refine ⟨k₁ + A.length - j, by omega, by omega, ?_, ?_⟩
          · intro l hl hld
            have hb : k₁ + A.length - j - 1 - l < t.length := by omega
            have h1 := hoccG _ hb
            have hidx : j + (k₁ + A.length - j - 1 - l) =
                k₁ + (A.length - 1 - l) := by omega
            rw [hidx] at h1
            have h2 := hfA (A.length - 1 - l) (by omega)
            rw [← h1]
            exact h2
          · intro x hx1 hx2
            have hb : x < t.length := by omega
            have h1 := hoccG x hb
            rw [← h1]
            exact hws2 (j + x) (by omega) (by omega)
        · left
          intro x hx1 hx2
          have hb : x < t.length := by omega
          have h1 := hoccG x hb
          rw [← h1]
          exact hws2 (j + x) (by omega) (by omega)
      · left
        omega
  · left
    intro x hx1 hx2
    have hb : x < t.length := by omega
    have h1 := hoccG x hb
    rw [← h1]
    exact hws3 (j + x) (by omega) (by omega)

theorem shape3_noSplit_contra_aux
    {A B C t s : List Char} {n i : Nat}
    (hm : matchToks
      (PTok.ws :: (A.map PTok.lit ++ PTok.ws :: (B.map PTok.lit ++ PTok.ws :: C.map PTok.lit)))
      s = some n)
    (hocc : leadsWith (t.drop i) s = true)
    (hni : n < t.length - i)
    (hnos : NoSplit3 A B C t) : False := by
  obtain ⟨k₁, k₂, k₃, hk₁, hk₂, hk₃, hn, hnsl, hws1, hfA, hws2, hfB, hws3, hfC⟩ :=
    matchToks_shape3_decomp hm
  have hcorr : ∀ x, x < t.length - i → s[x]? = t[i + x]? := by
    intro x hx
    have h := leadsWith_getElem? hocc x (by rw [List.length_drop]; omega)
    rw [List.getElem?_drop] at h
    exact h
  have hδlt : i + n - 1 < t.length - 1 := by omega
  have hagC : agreeSW C t (i + n - 1) := by
    intro l hl hld
    have hlC : l ≤ n - 1 := by omega
    have h1 := hcorr (n - 1 - l) (by omega)
    have hidx : i + (n - 1 - l) = i + n - 1 - l := by omega
    rw [hidx] at h1
    have h2 := hfC (C.length - 1 - l) (by omega)
    have hidx2 : k₁ + A.length + k₂ + B.length + k₃ + (C.length - 1 - l) =
        n - 1 - l := by omega
    rw [hidx2] at h2
    rw [← h1]
    exact h2
  obtain ⟨hCle, hnB⟩ := hnos (i + n - 1) hδlt hagC
  apply hnB
  unfold BadB
  right
  refine ⟨i + (k₁ + A.length + k₂ + B.length), by omega, by omega, ?_, ?_, ?_⟩
  · intro l hl hld
    have h1 := hcorr (k₁ + A.length + k₂ + (B.length - 1 - l)) (by omega)
    have hidx : i + (k₁ + A.length + k₂ + (B.length - 1 - l)) =
        i + (k₁ + A.length + k₂ + B.length) - 1 - l := by omega
    rw [hidx] at h1
    have h2 := hfB (B.length - 1 - l) (by omega)
    rw [← h1]
    exact h2
  · intro x hx1 hx2
    have h1 := hcorr (x - i) (by omega)
    have hidx : i + (x - i) = x := by omega
    rw [hidx] at h1
    rw [← h1]
    exact hws3 (x - i) (by omega) (by omega)
  · right
    have hbs : i + (k₁ + A.length + k₂ + B.length) - B.length =
        i + (k₁ + A.length + k₂) := by omega
    rw [hbs]
    unfold BadA
    right
    refine ⟨i + (k₁ + A.length), by omega, by omega, ?_, ?_⟩
    · intro l hl hld
      have h1 := hcorr (k₁ + (A.length - 1 - l)) (by omega)
      have hidx : i + (k₁ + (A.length - 1 - l)) = i + (k₁ + A.length) - 1 - l := by
        omega
      rw [hidx] at h1
      have h2 := hfA (A.length - 1 - l) (by omega)
      rw [← h1]
      exact h2
    · intro x hx1 hx2
      have h1 := hcorr (x - i) (by omega)
      have hidx : i + (x - i) = x := by omega
      rw [hidx] at h1
      rw [← h1]
      exact hws2 (x - i) (by omega) (by omega)

theorem occursIn_sub_shape3_noSplit_aux {r : Rule} {A B C t I : List Char}
    (hpat : r.pat =
      PTok.ws :: (A.map PTok.lit ++ PTok.ws :: (B.map PTok.lit ++ PTok.ws :: C.map PTok.lit)))
    (hrepl : r.repl = RTok.rgroup :: I.map RTok.rlit)
    (hlit : 1 ≤ litCount r.pat)
    (hnos : NoSplit3 A B C t) :
    ∀ (L : Nat) (s : List Char), s.length ≤ L → ∀ i,
      leadsWith (t.drop i) s = true →
      leadsWith (t.drop i) (sub r s) = true ∨ occursIn t (sub r s) = true := by
  intro L
  induction L with
  | zero =>
    intro s hs i hlw
    have hsnil : s = [] := List.length_eq_zero.mp (Nat.le_zero.mp hs)
    subst hsnil
    rw [sub_nil (pat_ne_nil_of_litCount hlit)]
    exact Or.inl hlw
  | succ L ih =>
    intro s hs i hlw
    cases s with
    | nil =>
      rw [sub_nil (pat_ne_nil_of_litCount hlit)]
      exact Or.inl hlw
    | cons c cs =>
      by_cases hti : t.length ≤ i
      · rw [List.drop_eq_nil_of_le hti] at hlw ⊢
        exact Or.inl (leadsWith_nil_left _)
      · push_neg at hti
        have hdropi : t.drop i = t[i] :: t.drop (i + 1) := List.drop_eq_getElem_cons hti
        cases hm : matchToks r.pat (c :: cs) with
        | none =>
          rw [sub_cons_none hm]
          rw [hdropi] at hlw
          simp only [leadsWith] at hlw
          by_cases hci : t[i] = c
          · rw [if_pos hci] at hlw
            have hcs : cs.length ≤ L := by
              simp only [List.length_cons] at hs; omega
            rcases ih cs hcs (i + 1) hlw with hL | hR
            · left
              rw [hdropi]
              simp only [leadsWith, if_pos hci]
              exact hL
            · right
              exact occursIn_cons c hR
          · rw [if_neg hci] at hlw
            exact absurd hlw (by simp)
        | some n =>
          cases n with
          | zero =>
            exfalso
            have := matchToks_litCount _ _ _ hm
            omega
          | succ m =>
            rw [sub_cons_some hm, hrepl, instRepl_group_rlits]
            by_cases hcov : t.length - i ≤ m + 1
            · left
              have h1 : leadsWith (t.drop i) ((c :: cs).take (m + 1)) = true := by
                apply leadsWith_take hlw
                rw [List.length_drop]
                exact hcov
              rw [List.append_assoc]
              exact leadsWith_append_left _ h1
            · exfalso
              push_neg at hcov
              have hm' := hm
              rw [hpat] at hm'
              exact shape3_noSplit_contra_aux hm' hlw (by omega) hnos

theorem occursIn_sub_shape3_noSplit {r : Rule} {A B C t I : List Char}
    (hpat : r.pat =
      PTok.ws :: (A.map PTok.lit ++ PTok.ws :: (B.map PTok.lit ++ PTok.ws :: C.map PTok.lit)))
    (hrepl : r.repl = RTok.rgroup :: I.map RTok.rlit)
    (hlit : 1 ≤ litCount r.pat)
    (hnos : NoSplit3 A B C t) :
    ∀ s, occursIn t s = true → occursIn t (sub r s) = true := by
  suffices H : ∀ (L : Nat) (s : List Char), s.length ≤ L → occursIn t s = true →
      occursIn t (sub r s) = true by
    intro s hs
    exact H s.length s (le_refl _) hs
  intro L
  induction L with
  | zero =>
    intro s hs hocc
    have hsnil : s = [] := List.length_eq_zero.mp (Nat.le_zero.mp hs)
    subst hsnil
    have ht : t = [] := by simpa [occursIn, List.isEmpty_iff] using hocc
    subst ht
    exact occursIn_nil_left _
  | succ L ih =>
    intro s hs hocc
    by_cases ht : t = []
    · subst ht; exact occursIn_nil_left _
    cases s with
    | nil =>
      have : t = [] := by simpa [occursIn, List.isEmpty_iff] using hocc
      exact absurd this ht
    | cons c cs =>
      simp only [List.length_cons] at hs
      cases hm : matchToks r.pat (c :: cs) with
      | none =>
        rw [sub_cons_none hm]
        simp only [occursIn, Bool.or_eq_true] at hocc
        cases hocc with
        | inl hl =>
          rcases occursIn_sub_shape3_noSplit_aux hpat hrepl hlit hnos (L + 1) (c :: cs)
              (by simp; omega) 0 (by simpa using hl) with hL | hR
          · rw [sub_cons_none hm] at hL
            exact occursIn_of_leadsWith hL
          · rw [sub_cons_none hm] at hR
            exact hR
        | inr hr => exact occursIn_cons c (ih cs (by omega) hr)
      | some n =>
        cases n with
        | zero =>
          exfalso
          have := matchToks_litCount _ _ _ hm
          omega
        | succ m =>
          rw [sub_cons_some hm, hrepl, instRepl_group_rlits]
          obtain ⟨j, hj⟩ := occursIn_iff_drop.mp hocc
          rcases Nat.lt_or_ge j (m + 1) with hjm | hjm
          · rcases le_or_lt (j + t.length) (m + 1) with hcov | hcov
            · have h1 : occursIn t ((c :: cs).take (m + 1)) = true :=
                occursIn_take_of hj hcov
              rw [List.append_assoc]
              exact occursIn_append_left _ h1
            · exfalso
              have hm' := hm
              rw [hpat] at hm'
              exact shape3_noSplit_contra_main hm' hj hjm hcov hnos
          · have hocc2 : occursIn t ((c :: cs).drop (m + 1)) = true := by
              apply occursIn_iff_drop.mpr
              refine ⟨j - (m + 1), ?_⟩
              rw [List.drop_drop]
              have heq : m + 1 + (j - (m + 1)) = j := by omega
              rw [heq]
              exact hj
            have hlen : ((c :: cs).drop (m + 1)).length ≤ L := by
              rw [List.length_drop]
              simp only [List.length_cons]
              omega
            exact occursIn_append_right _ (ih _ hlen hocc2)

/-! ## Counting and splitting at matches -/

theorem countN_fuel (r : Rule) :
    ∀ (L : Nat) (s : List Char), s.length ≤ L → ∀ b b' : Nat,
      s.length < b → s.length < b' → countN r b s = countN r b' s := by
  intro L
  induction L with
  | zero =>
    intro s hs b b' hb hb'
    have : s = [] := List.length_eq_zero.mp (Nat.le_zero.mp hs)
    subst this
    cases b with
    | zero => omega
    | succ k => cases b' with
      | zero => omega
      | succ k' => rfl
  | succ L ih =>
    intro s hs b b' hb hb'
    cases s with
    | nil =>
      cases b with
      | zero => omega
      | succ k => cases b' with
        | zero => omega
        | succ k' => rfl
    | cons c cs =>
      cases b with
      | zero => simp at hb
      | succ k =>
        cases b' with
        | zero => simp at hb'
        | succ k' =>
          simp only [List.length_cons] at hs hb hb'
          cases hm : matchToks r.pat (c :: cs) with
          | none =>
            simp only [countN, hm]
            rw [ih cs (by omega) k k' (by omega) (by omega)]
          | some n =>
            cases n with
            | zero =>
              simp only [countN, hm]
              rw [ih cs (by omega) k k' (by omega) (by omega)]
            | succ m =>
              simp only [countN, hm]
              have hlen : ((c :: cs).drop (m + 1)).length = cs.length - m := by simp
              rw [ih ((c :: cs).drop (m + 1)) (by omega) k k' (by omega) (by omega)]

theorem countMatches_cons_none {r : Rule} {c : Char} {cs : List Char}
    (hm : matchToks r.pat (c :: cs) = none) :
    countMatches r (c :: cs) = countMatches r cs := by
  simp only [countMatches, List.length_cons, countN, hm]

theorem countMatches_cons_some {r : Rule} {c : Char} {cs : List Char} {n : Nat}
    (hm : matchToks r.pat (c :: cs) = some (n + 1)) :
    countMatches r (c :: cs) = countMatches r ((c :: cs).drop (n + 1)) + 1 := by
  have hle : n + 1 ≤ (c :: cs).length := matchToks_le_length _ _ _ hm
  simp only [List.length_cons] at hle
  simp only [countMatches, List.length_cons, countN, hm]
  congr 1
  have hlen : ((c :: cs).drop (n + 1)).length = cs.length - n := by simp
  exact countN_fuel r (cs.length + 1) _ (by omega) _ _ (by omega) (by omega)

theorem splitAtMatch_spec {r : Rule} (hlit : 1 ≤ litCount r.pat) :
    ∀ (s u m v : List Char), splitAtMatch r s = some (u, m, v) →
      s = u ++ m ++ v ∧ sub r s = u ++ instRepl r.repl m ++ sub r v ∧
      countMatches r s = countMatches r v + 1 := by
  intro s
  induction s with
  | nil =>
    intro u m v h
    rw [show splitAtMatch r [] = none from by
      simp [splitAtMatch, matchToks_nil_of_ne (pat_ne_nil_of_litCount hlit)]] at h
    exact absurd h (by simp)
  | cons c cs ih =>
    intro u m v h
    cases hm : matchToks r.pat (c :: cs) with
    | some n =>
      cases n with
      | zero =>
        exfalso
        have := matchToks_litCount _ _ _ hm
        omega
      | succ k =>
        simp only [splitAtMatch, hm] at h
        injection h with h1
        obtain ⟨rfl, rfl, rfl⟩ : u = [] ∧ m = (c :: cs).take (k + 1) ∧
            v = (c :: cs).drop (k + 1) := by
          refine ⟨congrArg Prod.fst h1.symm, ?_, ?_⟩
          · exact (congrArg (fun p => p.2.1) h1).symm
          · exact (congrArg (fun p => p.2.2) h1).symm
        refine ⟨by rw [List.nil_append, List.take_append_drop], ?_, ?_⟩
        · rw [sub_cons_some hm, List.nil_append]
        · exact countMatches_cons_some hm
    | none =>
      simp only [splitAtMatch, hm, Option.map_eq_some'] at h
      obtain ⟨p, hsp, hval⟩ := h
      obtain ⟨u', m', v'⟩ := p
      simp only [Prod.mk.injEq] at hval
      obtain ⟨hu, hm'', hv⟩ := hval
      subst hu
      subst hm''
      subst hv
      obtain ⟨hdec, hsub, hcnt⟩ := ih u' m' v' hsp
      refine ⟨by rw [hdec]; simp, ?_, ?_⟩
      · rw [sub_cons_none hm, hsub]; simp
      · rw [countMatches_cons_none hm, hcnt]

/-! ## The leftmost match's instantiated replacement appears in the output -/

theorem firstMatch_sub {r : Rule} (hlit : 1 ≤ litCount r.pat) :
    ∀ (s m : List Char), firstMatch? r s = some m →
      occursIn (instRepl r.repl m) (sub r s) = true := by
  intro s
  induction s with
  | nil =>
    intro m h
    rw [show firstMatch? r [] = none from by
      simp [firstMatch?, matchToks_nil_of_ne (pat_ne_nil_of_litCount hlit)]] at h
    exact absurd h (by simp)
  | cons c cs ih =>
    intro m h
    cases hm : matchToks r.pat (c :: cs) with
    | some n =>
      cases n with
      | zero =>
        exfalso
        have := matchToks_litCount _ _ _ hm
        omega
      | succ k =>
        simp only [firstMatch?, hm, Option.some.injEq] at h
        subst h
        rw [sub_cons_some hm]
        exact occursIn_append_left _ (occursIn_of_leadsWith (leadsWith_refl _))
    | none =>
      simp only [firstMatch?, hm] at h
      rw [sub_cons_none hm]
      exact occursIn_cons c (ih m h)

/-! ## Every `update_forvia.py` pattern needs the letters `medical` -/

theorem leadsWithP_iff {t s : List PTok} : leadsWithP t s = true ↔ ∃ v, s = t ++ v := by
  induction t generalizing s with
  | nil =>
    constructor
    · intro _; exact ⟨s, rfl⟩
    · intro _; cases s <;> rfl
  | cons a ts ih =>
    cases s with
    | nil =>
      simp only [leadsWithP]
      constructor
      · intro hf; exact absurd hf (by simp)
      · rintro ⟨v, hv⟩; simp at hv
    | cons b ss =>
      simp only [leadsWithP]
      by_cases h : a = b
      · subst h
        rw [if_pos rfl, ih]
        constructor
        · rintro ⟨v, rfl⟩; exact ⟨v, rfl⟩
        · rintro ⟨v, hv⟩
          exact ⟨v, by simpa using hv⟩
      · rw [if_neg h]
        constructor
        · intro hf; exact absurd hf (by simp)
        · rintro ⟨v, hv⟩
          simp only [List.cons_append] at hv
          injection hv with h1 _
          exact absurd h1.symm h

theorem occursInP_decomp {t p : List PTok} (h : occursInP t p = true) :
    ∃ ps ts, p = ps ++ (t ++ ts) := by
  induction p with
  | nil =>
    have ht : t = [] := by simpa [occursInP, List.isEmpty_iff] using h
    exact ⟨[], [], by simp [ht]⟩
  | cons c cs ih =>
    simp only [occursInP, Bool.or_eq_true] at h
    cases h with
    | inl hl =>
      obtain ⟨v, hv⟩ := leadsWithP_iff.mp hl
      exact ⟨[], v, by simpa using hv⟩
    | inr hr =>
      obtain ⟨ps, ts, hps⟩ := ih hr
      exact ⟨c :: ps, ts, by simp [hps]⟩

theorem anyMatch_occursIn_of_inner {w : List Char} {p : List PTok}
    (hin : ∃ ps ts, p = ps ++ (w.map PTok.lit ++ ts)) :
    ∀ s, anyMatch p s = true → occursIn w s = true := by
  obtain ⟨ps, ts, rfl⟩ := hin
  intro s
  induction s with
  | nil =>
    intro h
    simp only [anyMatch, Option.isSome_iff_exists] at h
    obtain ⟨n, hn⟩ := h
    exact matchToks_inner_occursIn ps w ts [] n hn
  | cons c cs ih =>
    intro h
    simp only [anyMatch, Bool.or_eq_true, Option.isSome_iff_exists] at h
    cases h with
    | inl hl =>
      obtain ⟨n, hn⟩ := hl
      exact matchToks_inner_occursIn ps w ts (c :: cs) n hn
    | inr hr => exact occursIn_cons c (ih hr)

theorem sub_id_of_missing_inner {r : Rule} {w : List Char}
    (hocc : occursInP (w.map PTok.lit) r.pat = true) :
    ∀ s, occursIn w s = false → sub r s = s := by
  intro s hno
  apply sub_id_of_not_anyMatch
  by_contra hany
  have h1 : anyMatch r.pat s = true := by
    cases h : anyMatch r.pat s with
    | false => exact absurd h hany
    | true => rfl
  have h2 := anyMatch_occursIn_of_inner (occursInP_decomp hocc) s h1
  rw [hno] at h2
  exact absurd h2 (by simp)



/-! ## Bridging lemmas: the executable checkers decide the Prop conditions -/

theorem compatB_iff : ∀ (u v : List Char),
    compatB u v = true ↔ ∀ i, i < u.length → i < v.length → u[i]? = v[i]?
  | [], v => by
    constructor
    · intro _ i hi
      simp at hi
    · intro _
      rfl
  | a :: as, [] => by
    constructor
    · intro _ i _ hv
      simp at hv
    · intro _
      rfl
  | a :: as, b :: bs => by
    rw [show compatB (a :: as) (b :: bs) = (a == b && compatB as bs) from rfl,
      Bool.and_eq_true, beq_iff_eq, compatB_iff as bs]
    constructor
    · rintro ⟨rfl, h⟩ i hi hv
      cases i with
      | zero => rw [List.getElem?_cons_zero, List.getElem?_cons_zero]
      | succ j =>
        rw [List.getElem?_cons_succ, List.getElem?_cons_succ]
        exact h j (by simp only [List.length_cons] at hi; omega)
          (by simp only [List.length_cons] at hv; omega)
    · intro h
      refine ⟨?_, ?_⟩
      · have h0 := h 0 (by simp) (by simp)
        simp only [List.getElem?_cons_zero, Option.some.injEq] at h0
        exact h0
      · intro j hj hv
        have hs := h (j + 1) (by simp only [List.length_cons]; omega)
          (by simp only [List.length_cons]; omega)
        rw [List.getElem?_cons_succ, List.getElem?_cons_succ] at hs
        exact hs

theorem agreeB_iff {X t : List Char} {d : Nat} (hd : d < t.length) :
    agreeB X t d = true ↔ agreeSW X t d := by
  have hlen : (t.take (d + 1)).length = d + 1 := by
    rw [List.length_take]
    omega
  rw [show agreeB X t d = compatB X.reverse ((t.take (d + 1)).reverse) from rfl,
    compatB_iff]
  constructor
  · intro h l hl hld
    have h1 := h l (by rw [List.length_reverse]; exact hl)
      (by rw [List.length_reverse, hlen]; omega)
    rw [List.getElem?_reverse hl, List.getElem?_reverse (by rw [hlen]; omega), hlen] at h1
    have hidx : d + 1 - 1 - l = d - l := by omega
    rw [hidx, List.getElem?_take_of_lt (by omega)] at h1
    exact h1.symm
  · intro h i hiu hiv
    rw [List.length_reverse] at hiu
    rw [List.length_reverse, hlen] at hiv
    have h1 := h i hiu (by omega)
    rw [List.getElem?_reverse hiu, List.getElem?_reverse (by rw [hlen]; omega), hlen]
    have hidx : d + 1 - 1 - i = d - i := by omega
    rw [hidx, List.getElem?_take_of_lt (by omega)]
    exact h1.symm

theorem overlayB_iff {X Y : List Char} {d : Nat} :
    overlayB X Y d = true ↔ Overlay X Y d := by
  rw [show overlayB X Y d = compatB (X.drop d) Y from rfl, compatB_iff]
  constructor
  · intro h k hk hdk
    have h1 := h k (by rw [List.length_drop]; omega) hk
    rw [List.getElem?_drop] at h1
    exact h1
  · intro h i hiu hiv
    rw [List.length_drop] at hiu
    rw [List.getElem?_drop]
    exact h i hiv (by omega)

theorem canOv_to_b {P t : List Char} (h : CanOv P t) : canOvB P t = true := by
  rw [show canOvB P t = (((List.range P.length).any fun d => overlayB P t d) ||
    ((List.range t.length).any fun e => !(e == 0) && overlayB t P e)) from rfl,
    Bool.or_eq_true, List.any_eq_true, List.any_eq_true]
  cases h with
  | inl h1 =>
    obtain ⟨d, hd, ho⟩ := h1
    exact Or.inl ⟨d, List.mem_range.mpr hd, overlayB_iff.mpr ho⟩
  | inr h1 =>
    obtain ⟨e, he, he1, ho⟩ := h1
    refine Or.inr ⟨e, List.mem_range.mpr he, ?_⟩
    rw [Bool.and_eq_true]
    refine ⟨?_, overlayB_iff.mpr ho⟩
    cases e with
    | zero => exact absurd he1 (by omega)
    | succ n => rfl

theorem not_canOv_of_b {P t : List Char} (h : canOvB P t = false) : ¬ CanOv P t :=
  fun hc => by rw [canOv_to_b hc] at h; exact Bool.noConfusion h

theorem splitSafe_of_b {E t : List Char} (h : splitSafeB E t = true) : SplitSafe E t := by
  intro j hj hagree
  rw [show splitSafeB E t = ((List.range (t.length - 1)).all fun j => !agreeB E t j)
    from rfl, List.all_eq_true] at h
  have hb := h j (List.mem_range.mpr (by omega))
  have hag : agreeB E t j = true := (agreeB_iff (by omega)).mpr hagree
  simp [hag] at hb

theorem all_getElem? : ∀ (l : List Char) (p : Char → Bool),
    l.all p = true ↔ ∀ i : Nat, (l[i]?.all p) = true
  | [], p => by
    constructor
    · intro _ i
      simp
    · intro _
      rfl
  | c :: cs, p => by
    rw [List.all_cons, Bool.and_eq_true, all_getElem? cs p]
    constructor
    · rintro ⟨h0, h⟩ i
      cases i with
      | zero => simpa using h0
      | succ j =>
        rw [List.getElem?_cons_succ]
        exact h j
    · intro h
      refine ⟨by simpa using h 0, fun j => ?_⟩
      have hs := h (j + 1)
      rw [List.getElem?_cons_succ] at hs
      exact hs

theorem wsRange_of_b {t : List Char} {a b : Nat} (h : wsRangeB t a b = true) :
    wsRange t a b := by
  rw [show wsRangeB t a b = ((t.drop a).take (b - a)).all isPySpace from rfl,
    all_getElem? _ _] at h
  intro x hxb hax
  have h1 := h (x - a)
  have hlt : x - a < b - a := by omega
  rw [List.getElem?_take_of_lt hlt, List.getElem?_drop] at h1
  have hax2 : a + (x - a) = x := by omega
  rw [hax2] at h1
  exact h1

theorem wsRange_to_b {t : List Char} {a b : Nat} (h : wsRange t a b) :
    wsRangeB t a b = true := by
  rw [show wsRangeB t a b = ((t.drop a).take (b - a)).all isPySpace from rfl,
    all_getElem? _ _]
  intro i
  by_cases hi : i < b - a
  · rw [List.getElem?_take_of_lt hi, List.getElem?_drop]
    exact h (a + i) (by omega) (by omega)
  · have hlen : ((t.drop a).take (b - a)).length ≤ b - a := by
      rw [List.length_take]
      exact inf_le_left
    rw [List.getElem?_eq_none (by omega)]
    rfl

theorem badA_to_b {A t : List Char} {bs : Nat} (hbs : bs ≤ t.length) (h : BadA A t bs) :
    badAB A t bs = true := by
  rw [show badAB A t bs = (wsRangeB t 0 bs ||
    ((List.range bs).any fun a => !(a == 0) && (agreeB A t (a - 1) && wsRangeB t a bs)))
    from rfl, Bool.or_eq_true, List.any_eq_true]
  cases h with
  | inl h1 => exact Or.inl (wsRange_to_b h1)
  | inr h1 =>
    obtain ⟨a, ha, ha1, hag, hws⟩ := h1
    refine Or.inr ⟨a, List.mem_range.mpr ha, ?_⟩
    rw [Bool.and_eq_true, Bool.and_eq_true]
    refine ⟨?_, (agreeB_iff (by omega)).mpr hag, wsRange_to_b hws⟩
    cases a with
    | zero => exact absurd ha1 (by omega)
    | succ n => rfl

theorem badB_to_b {A B t : List Char} {cs : Nat} (hcs : cs ≤ t.length)
    (h : BadB A B t cs) : badBB A B t cs = true := by
  rw [show badBB A B t cs = (wsRangeB t 0 cs ||
    ((List.range cs).any fun b => !(b == 0) && (agreeB B t (b - 1) && (wsRangeB t b cs &&
      (decide (b ≤ B.length) || badAB A t (b - B.length)))))) from rfl,
    Bool.or_eq_true, List.any_eq_true]
  cases h with
  | inl h1 => exact Or.inl (wsRange_to_b h1)
  | inr h1 =>
    obtain ⟨b, hb, hb1, hag, hws, hrest⟩ := h1
    refine Or.inr ⟨b, List.mem_range.mpr hb, ?_⟩
    rw [Bool.and_eq_true, Bool.and_eq_true, Bool.and_eq_true, Bool.or_eq_true]
    refine ⟨?_, (agreeB_iff (by omega)).mpr hag, wsRange_to_b hws, ?_⟩
    · cases b with
      | zero => exact absurd hb1 (by omega)
      | succ n => rfl
    · cases hrest with
      | inl h2 => exact Or.inl (decide_eq_true h2)
      | inr h2 => exact Or.inr (badA_to_b (by omega) h2)

theorem noSplit3_of_b {A B C t : List Char} (h : noSplit3B A B C t = true) :
    NoSplit3 A B C t := by
  intro d hd hagree
  rw [show noSplit3B A B C t = ((List.range (t.length - 1)).all fun d =>
    !agreeB C t d || (decide (C.length ≤ d + 1) && !badBB A B t (d + 1 - C.length)))
    from rfl, List.all_eq_true] at h
  have hb := h d (List.mem_range.mpr hd)
  rw [Bool.or_eq_true, Bool.and_eq_true] at hb
  have hag : agreeB C t d = true := (agreeB_iff (by omega)).mpr hagree
  cases hb with
  | inl h1 => simp [hag] at h1
  | inr h1 =>
    obtain ⟨hcl, hnb⟩ := h1
    refine ⟨of_decide_eq_true hcl, ?_⟩
    intro hbad
    have hbb := badB_to_b (by omega) hbad
    simp [hbb] at hnb

/-! ## Global facts about the embedded rule sets -/

/-- Every pattern of the two scripts contains at least one literal atom. -/
theorem allRules_litCount : ∀ r ∈ allRules, 1 ≤ litCount r.pat := by decide

/-- In every pattern of the two scripts, each whitespace atom is followed by
a non-whitespace literal, so the maximal munch of `matchToks` agrees with
the greedy Python semantics of the embedded regexes. -/
theorem allRules_wsOk : ∀ r ∈ allRules, wsOk r.pat = true := by decide

/-- Every pattern of the two scripts ends with a literal atom. -/
theorem allRules_endsLit : ∀ r ∈ allRules, endsLit r.pat = true := by decide

/-! ## The claims -/

/-- Claim C1, counterexample: the claim fails on both of its conjuncts.
First, `pattern2` of `update_forvia.py` matches `bufOneMedicalBlock`
exactly once, yet after the substitution the complete original matched text
is still present, because `replacement2` starts with a backreference to
group 1, which is the whole match.  Second, the condition-check rule of
`update_medical.py` matches `bufReplAndPat` exactly once, yet after the
substitution the replacement text occurs twice, because the input already
contained one copy of it. -/
theorem claimC1_counterexample :
    (countMatches fr2 bufOneMedicalBlock.data = 1 ∧
      occursIn bufOneMedicalBlock.data (sub fr2 bufOneMedicalBlock.data) = true) ∧
    (countMatches med1 bufReplAndPat.data = 1 ∧
      occCount medCondRepl.data (sub med1 bufReplAndPat.data) = 2) :=
  ⟨⟨by decide, by decide⟩, by decide, by decide⟩

/-- Claim C1, amended: for every rule in either script and every input
buffer containing exactly one match of its pattern, the output buffer
contains the replacement text instantiated at that match at least once.
The original matched text may persist in the output (each insertion rule
keeps it, since its replacement begins with a backreference to group 1,
the whole match), and the instantiated replacement may occur more than
once when the input already contained copies of it. -/
theorem claimC1_amended (r : Rule) (hr : r ∈ allRules) (s m : List Char)
    (hone : countMatches r s = 1) (hm : firstMatch? r s = some m) :
    occursIn (instRepl r.repl m) (sub r s) = true :=
  firstMatch_sub (allRules_litCount r hr) s m hm

/-- Claim C1, amended, instantiated: the condition-check rule of
`update_medical.py` on a buffer holding exactly its pattern. -/
theorem claimC1_amended_witness :
    med1 ∈ allRules ∧ countMatches med1 medCondPat.data = 1 ∧
    firstMatch? med1 medCondPat.data = some medCondPat.data ∧
    occursIn (instRepl med1.repl medCondPat.data) (sub med1 medCondPat.data) = true :=
  ⟨by decide, by decide, by decide,
    claimC1_amended med1 (by decide) medCondPat.data medCondPat.data (by decide) (by decide)⟩

/-- Claim C2: every input buffer containing the literal condition-check
line, after the full medical-integration rule set runs on it, contains the
extended condition text ending in the medical alternative
(`scenario1Target`). -/
theorem claimC2_scenario1 (s : List Char)
    (h : occursIn medCondPat.data s = true) :
    occursIn scenario1Target.data (updateMedical s) = true := by
  have hpr1 : med1.pat = medCondPat.data.map PTok.lit := rfl
  have hrr1 : med1.repl = medCondRepl.data.map RTok.rlit := rfl
  have h0 : occursIn medCondRepl.data (sub med1 s) = true :=
    occursIn_repl_sub_litRule hpr1 hrr1 (by decide) s h
  have h1 : occursIn scenario1Target.data (sub med1 s) = true :=
    occursIn_trans (by decide) h0
  have hp2 : med2.pat = (PTok.ws :: (lits medIfA ++ PTok.ws :: (lits medIfB ++
      [PTok.ws]))) ++ medIfC.data.map PTok.lit := by decide
  have hr2 : med2.repl = RTok.rgroup :: medIfIns.data.map RTok.rlit := rfl
  have h2 : occursIn scenario1Target.data (sub med2 (sub med1 s)) = true :=
    occursIn_sub_insertion hp2 hr2 (by decide) (splitSafe_of_b (by decide)) (sub med1 s) h1
  have hp3 : med3.pat = (PTok.ws :: (lits medResetA ++ PTok.ws :: (lits medResetB ++
      [PTok.ws]))) ++ medResetC.data.map PTok.lit := by decide
  have hr3 : med3.repl = RTok.rgroup :: medResetIns.data.map RTok.rlit := rfl
  have h3 : occursIn scenario1Target.data (sub med3 (sub med2 (sub med1 s))) = true :=
    occursIn_sub_insertion hp3 hr3 (by decide) (splitSafe_of_b (by decide)) (sub med2 (sub med1 s)) h2
  have hp4 : med4.pat = medCommentPat.data.map PTok.lit := rfl
  have h4 : occursIn scenario1Target.data
      (sub med4 (sub med3 (sub med2 (sub med1 s)))) = true :=
    occursIn_sub_litRule hp4 (by decide) (not_canOv_of_b (by decide)) (sub med3 (sub med2 (sub med1 s))) h3
  exact h4

/-- Claim C2, instantiated on a buffer holding exactly the condition line. -/
theorem claimC2_scenario1_witness :
    occursIn medCondPat.data medCondPat.data = true ∧
    occursIn scenario1Target.data (updateMedical medCondPat.data) = true :=
  ⟨by decide, claimC2_scenario1 medCondPat.data (by decide)⟩

set_option maxHeartbeats 8000000 in
/-- Claim C3: on any buffer containing the canonical medical modal block
following a sensorSensei modal block (`bufScenario2`), the forvia rule set
leaves the medical block followed immediately by the inserted forviaCAR
conditional block (which checks the forviaCAR type and the negated
forviaCarModalClosed flag, `forviaIfIns`); and on any buffer containing
either canonical medical reset block with its leading whitespace, the rule
set leaves that reset block followed immediately by the matching forviaCAR
reset block. -/
theorem claimC3_scenario2 (s : List Char) :
    (occursIn bufScenario2.data s = true →
      occursIn (mcCore ++ forviaIfIns).data (updateForvia s) = true) ∧
    (occursIn bufBackBlock.data s = true →
      occursIn (backCore ++ forviaBackIns).data (updateForvia s) = true) ∧
    (occursIn bufNavBlock.data s = true →
      occursIn (navCore ++ forviaNavIns).data (updateForvia s) = true) := by
  have hp1 : fr1.pat = forviaCondPat.data.map PTok.lit := rfl
  have hp3l : fr3.pat = forviaCommentPat.data.map PTok.lit := rfl
  have hp2 : fr2.pat = PTok.ws :: (forviaIfA.data.map PTok.lit ++ PTok.ws ::
      (forviaIfB.data.map PTok.lit ++ PTok.ws :: forviaIfC.data.map PTok.lit)) := rfl
  have hp4 : fr4.pat = PTok.ws :: (forviaBackA.data.map PTok.lit ++ PTok.ws ::
      (forviaBackB.data.map PTok.lit ++ PTok.ws :: forviaBackC.data.map PTok.lit)) := rfl
  have hp5 : fr5.pat = PTok.ws :: (forviaNavA.data.map PTok.lit ++ PTok.ws ::
      (forviaBackB.data.map PTok.lit ++ PTok.ws :: forviaBackC.data.map PTok.lit)) := rfl
  have hr2 : fr2.repl = RTok.rgroup :: forviaIfIns.data.map RTok.rlit := rfl
  have hr4 : fr4.repl = RTok.rgroup :: forviaBackIns.data.map RTok.rlit := rfl
  have hr5 : fr5.repl = RTok.rgroup :: forviaNavIns.data.map RTok.rlit := rfl
  have hp2s : fr2.pat = (PTok.ws :: (lits forviaIfA ++ PTok.ws :: (lits forviaIfB ++
      [PTok.ws]))) ++ forviaIfC.data.map PTok.lit := by decide
  have hp4s : fr4.pat = (PTok.ws :: (lits forviaBackA ++ PTok.ws :: (lits forviaBackB ++
      [PTok.ws]))) ++ forviaBackC.data.map PTok.lit := by decide
  have hp5s : fr5.pat = (PTok.ws :: (lits forviaNavA ++ PTok.ws :: (lits forviaBackB ++
      [PTok.ws]))) ++ forviaBackC.data.map PTok.lit := by decide
  refine ⟨?_, ?_, ?_⟩
  · intro h
    have h0 : occursIn bufOneMedicalBlock.data s = true := occursIn_trans (by decide) h
    have h1 : occursIn bufOneMedicalBlock.data (sub fr1 s) = true :=
      occursIn_sub_litRule hp1 (by decide) (not_canOv_of_b (by decide)) s h0
    have hT1 : bufOneMedicalBlock.data = "\n        ".data ++ forviaIfA.data ++
        "\n          ".data ++ forviaIfB.data ++ "\n        ".data ++ forviaIfC.data := by
      decide
    have h2 := occursIn_sub_shape3_insert hp2 hr2 hT1 (by decide) (by decide) (by decide)
      (by decide) (by decide) (by decide) (by decide) (by decide) (by decide) (by decide)
      (by decide) (by decide) (by decide) (by decide) (by decide) (by decide) (by decide)
      (sub fr1 s) h1
    have heq2 : ((forviaIfA.data ++ "\n          ".data ++ forviaIfB.data ++
        "\n        ".data ++ forviaIfC.data) ++ forviaIfIns.data) =
        (mcCore ++ forviaIfIns).data := by decide
    rw [heq2] at h2
    have h3 : occursIn (mcCore ++ forviaIfIns).data
        (sub fr3 (sub fr2 (sub fr1 s))) = true :=
      occursIn_sub_litRule hp3l (by decide) (not_canOv_of_b (by decide)) (sub fr2 (sub fr1 s)) h2
    have h4 : occursIn (mcCore ++ forviaIfIns).data
        (sub fr4 (sub fr3 (sub fr2 (sub fr1 s)))) = true :=
      occursIn_sub_insertion hp4s hr4 (by decide) (splitSafe_of_b (by decide))
        (sub fr3 (sub fr2 (sub fr1 s))) h3
    have h5 : occursIn (mcCore ++ forviaIfIns).data
        (sub fr5 (sub fr4 (sub fr3 (sub fr2 (sub fr1 s))))) = true :=
      occursIn_sub_insertion hp5s hr5 (by decide) (splitSafe_of_b (by decide))
        (sub fr4 (sub fr3 (sub fr2 (sub fr1 s)))) h4
    exact h5
  · intro h
    have h1 : occursIn bufBackBlock.data (sub fr1 s) = true :=
      occursIn_sub_litRule hp1 (by decide) (not_canOv_of_b (by decide)) s h
    have h2 : occursIn bufBackBlock.data (sub fr2 (sub fr1 s)) = true :=
      occursIn_sub_insertion hp2s hr2 (by decide) (splitSafe_of_b (by decide)) (sub fr1 s) h1
    have h3 : occursIn bufBackBlock.data (sub fr3 (sub fr2 (sub fr1 s))) = true :=
      occursIn_sub_litRule hp3l (by decide) (not_canOv_of_b (by decide)) (sub fr2 (sub fr1 s)) h2
    have hT4 : bufBackBlock.data = "\n    ".data ++ forviaBackA.data ++ "\n    ".data ++
        forviaBackB.data ++ "\n    ".data ++ forviaBackC.data := by decide
    have h4 := occursIn_sub_shape3_insert hp4 hr4 hT4 (by decide) (by decide) (by decide)
      (by decide) (by decide) (by decide) (by decide) (by decide) (by decide) (by decide)
      (by decide) (by decide) (by decide) (by decide) (by decide) (by decide) (by decide)
      (sub fr3 (sub fr2 (sub fr1 s))) h3
    have heq4 : ((forviaBackA.data ++ "\n    ".data ++ forviaBackB.data ++ "\n    ".data ++
        forviaBackC.data) ++ forviaBackIns.data) = (backCore ++ forviaBackIns).data := by
      decide
    rw [heq4] at h4
    have h5 : occursIn (backCore ++ forviaBackIns).data
        (sub fr5 (sub fr4 (sub fr3 (sub fr2 (sub fr1 s))))) = true :=
      occursIn_sub_shape3_noSplit hp5 hr5 (by decide) (noSplit3_of_b (by decide))
        (sub fr4 (sub fr3 (sub fr2 (sub fr1 s)))) h4
    exact h5
  · intro h
    have h1 : occursIn bufNavBlock.data (sub fr1 s) = true :=
      occursIn_sub_litRule hp1 (by decide) (not_canOv_of_b (by decide)) s h
    have h2 : occursIn bufNavBlock.data (sub fr2 (sub fr1 s)) = true :=
      occursIn_sub_insertion hp2s hr2 (by decide) (splitSafe_of_b (by decide)) (sub fr1 s) h1
    have h3 : occursIn bufNavBlock.data (sub fr3 (sub fr2 (sub fr1 s))) = true :=
      occursIn_sub_litRule hp3l (by decide) (not_canOv_of_b (by decide)) (sub fr2 (sub fr1 s)) h2
    have h4 : occursIn bufNavBlock.data (sub fr4 (sub fr3 (sub fr2 (sub fr1 s)))) = true :=
      occursIn_sub_shape3_noSplit hp4 hr4 (by decide) (noSplit3_of_b (by decide))
        (sub fr3 (sub fr2 (sub fr1 s))) h3
    have hT5 : bufNavBlock.data = "\n      ".data ++ forviaNavA.data ++ "\n      ".data ++
        forviaBackB.data ++ "\n      ".data ++ forviaBackC.data := by decide
    have h5 := occursIn_sub_shape3_insert hp5 hr5 hT5 (by decide) (by decide) (by decide)
      (by decide) (by decide) (by decide) (by decide) (by decide) (by decide) (by decide)
      (by decide) (by decide) (by decide) (by decide) (by decide) (by decide) (by decide)
      (sub fr4 (sub fr3 (sub fr2 (sub fr1 s)))) h4
    have heq5 : ((forviaNavA.data ++ "\n      ".data ++ forviaBackB.data ++
        "\n      ".data ++ forviaBackC.data) ++ forviaNavIns.data) =
        (navCore ++ forviaNavIns).data := by decide
    rw [heq5] at h5
    exact h5

/-- Claim C3, instantiated on a buffer holding exactly the sensorSensei and
medical modal blocks. -/
theorem claimC3_scenario2_witness :
    occursIn bufScenario2.data bufScenario2.data = true ∧
    occursIn (mcCore ++ forviaIfIns).data (updateForvia bufScenario2.data) = true :=
  ⟨by decide, (claimC3_scenario2 bufScenario2.data).1 (by decide)⟩

/-- Claim C4: every rule of either script is a no-op on every buffer with
no match of its pattern, and (by totality of `sub`) produces no error or
other signal. -/
theorem claimC4_noop (r : Rule) (hr : r ∈ allRules) (s : List Char)
    (h : anyMatch r.pat s = false) : sub r s = s :=
  sub_id_of_not_anyMatch s h

/-- Claim C4, instantiated on the condition-check rule and a short buffer. -/
theorem claimC4_noop_witness :
    med1 ∈ allRules ∧ anyMatch med1.pat ("hello".data) = false ∧
    sub med1 ("hello".data) = "hello".data :=
  ⟨by decide, by decide, claimC4_noop med1 (by decide) ("hello".data) (by decide)⟩

/-- Claim C5: on a buffer matched by none of a script's patterns, the full
run writes back a buffer identical to the input and still prints the fixed
success message of that script. -/
theorem claimC5_unchanged_run (s : List Char) :
    ((∀ r ∈ medicalRules, anyMatch r.pat s = false) →
      runMedical (some s) = (some s, some medicalMsg)) ∧
    ((∀ r ∈ forviaRules, anyMatch r.pat s = false) →
      runForvia (some s) = (some s, some forviaMsg)) := by
  constructor
  · intro h
    have h1 : sub med1 s = s := sub_id_of_not_anyMatch s (h med1 (by decide))
    have h2 : sub med2 s = s := sub_id_of_not_anyMatch s (h med2 (by decide))
    have h3 : sub med3 s = s := sub_id_of_not_anyMatch s (h med3 (by decide))
    have h4 : sub med4 s = s := sub_id_of_not_anyMatch s (h med4 (by decide))
    have hu : updateMedical s = s := by
      show sub med4 (sub med3 (sub med2 (sub med1 s))) = s
      rw [h1, h2, h3, h4]
    show (some (updateMedical s), some medicalMsg) = (some s, some medicalMsg)
    rw [hu]
  · intro h
    have h1 : sub fr1 s = s := sub_id_of_not_anyMatch s (h fr1 (by decide))
    have h2 : sub fr2 s = s := sub_id_of_not_anyMatch s (h fr2 (by decide))
    have h3 : sub fr3 s = s := sub_id_of_not_anyMatch s (h fr3 (by decide))
    have h4 : sub fr4 s = s := sub_id_of_not_anyMatch s (h fr4 (by decide))
    have h5 : sub fr5 s = s := sub_id_of_not_anyMatch s (h fr5 (by decide))
    have hu : updateForvia s = s := by
      show sub fr5 (sub fr4 (sub fr3 (sub fr2 (sub fr1 s)))) = s
      rw [h1, h2, h3, h4, h5]
    show (some (updateForvia s), some forviaMsg) = (some s, some forviaMsg)
    rw [hu]

/-- Claim C5, instantiated on a two-character buffer. -/
theorem claimC5_unchanged_run_witness :
    (∀ r ∈ medicalRules, anyMatch r.pat ("zz".data) = false) ∧
    runMedical (some ("zz".data)) = (some ("zz".data), some medicalMsg) :=
  ⟨by decide, (claimC5_unchanged_run ("zz".data)).1 (by decide)⟩

/-- Claim C6: the medical rule sequence is not idempotent: on the buffer
holding the canonical sensorSensei modal block, running the full sequence
twice duplicates the inserted medical modal block, so the result differs
from running it once. -/
theorem claimC6_not_idempotent :
    updateMedical (updateMedical bufOneSensorBlock.data) ≠
      updateMedical bufOneSensorBlock.data := by decide

/-- Claim C7: each script is exactly the left-to-right fold of its listed
substitutions, each rule observing the cumulative output of all prior
rules; and application is not commutative: the medical condition-check rule
rewrites the condition line into the text that `pattern1` of
`update_forvia.py` then matches, so swapping the two rules on the plain
condition line changes the final result. -/
theorem claimC7_sequential_order :
    (∀ s, updateMedical s = List.foldl (fun b r => sub r b) s medicalRules) ∧
    (∀ s, updateForvia s = List.foldl (fun b r => sub r b) s forviaRules) ∧
    sub fr1 (sub med1 medCondPat.data) ≠ sub med1 (sub fr1 medCondPat.data) :=
  ⟨fun _ => rfl, fun _ => rfl, by decide⟩

/-- Claim C8: one application of a rule replaces every non-overlapping
match, not only the first: at the leftmost match the buffer splits into
an untouched prefix, the instantiated replacement, and the rule applied
again (within the same single substitution pass) to the entire remainder,
with the match count decreasing by exactly one. -/
theorem claimC8_all_matches (r : Rule) (hr : r ∈ allRules) (s u m v : List Char)
    (hsp : splitAtMatch r s = some (u, m, v)) :
    s = u ++ m ++ v ∧ sub r s = u ++ instRepl r.repl m ++ sub r v ∧
    countMatches r s = countMatches r v + 1 :=
  splitAtMatch_spec (allRules_litCount r hr) s u m v hsp

/-- Claim C8, instantiated: a buffer with two matches of the condition-check
rule splits at the first one, and the recursive call handles the second. -/
theorem claimC8_all_matches_witness :
    splitAtMatch med1 bufTwoCond.data =
      some ([], medCondPat.data, ("+" ++ medCondPat).data) ∧
    (bufTwoCond.data = [] ++ medCondPat.data ++ ("+" ++ medCondPat).data ∧
      sub med1 bufTwoCond.data =
        [] ++ instRepl med1.repl medCondPat.data ++ sub med1 (("+" ++ medCondPat).data) ∧
      countMatches med1 bufTwoCond.data =
        countMatches med1 (("+" ++ medCondPat).data) + 1) :=
  ⟨by decide, claimC8_all_matches med1 (by decide) bufTwoCond.data []
    medCondPat.data (("+" ++ medCondPat).data) (by decide)⟩

/-- Claim C9: in the run model, a fault before the write step (the read of
the target file fails, state `none`) aborts the run with nothing written
and nothing printed, so the target file is left unchanged; and on a
successful read the file is written only with the fully transformed buffer,
after all rules have been applied. -/
theorem claimC9_fault_before_write :
    (runMedical none = (none, none) ∧ runForvia none = (none, none)) ∧
    (∀ c, runMedical (some c) = (some (updateMedical c), some medicalMsg)) ∧
    (∀ c, runForvia (some c) = (some (updateForvia c), some forviaMsg)) :=
  ⟨⟨rfl, rfl⟩, fun _ => rfl, fun _ => rfl⟩

/-- Claim C10: every pattern of `update_forvia.py` contains the literal
word medical, text which only the medical integration introduces, so on
any buffer in which that word does not occur the whole forvia
transformation is the identity. -/
theorem claimC10_forvia_needs_medical (s : List Char)
    (h : occursIn ("medical".data) s = false) : updateForvia s = s := by
  have h1 : sub fr1 s = s := sub_id_of_missing_inner (by decide) s h
  have h2 : sub fr2 s = s := sub_id_of_missing_inner (by decide) s h
  have h3 : sub fr3 s = s := sub_id_of_missing_inner (by decide) s h
  have h4 : sub fr4 s = s := sub_id_of_missing_inner (by decide) s h
  have h5 : sub fr5 s = s := sub_id_of_missing_inner (by decide) s h
  show sub fr5 (sub fr4 (sub fr3 (sub fr2 (sub fr1 s)))) = s
  rw [h1, h2, h3, h4, h5]

/-- Claim C10, instantiated on a buffer without the word medical. -/
theorem claimC10_forvia_needs_medical_witness :
    occursIn ("medical".data) ("hello world".data) = false ∧
    updateForvia ("hello world".data) = "hello world".data :=
  ⟨by decide, claimC10_forvia_needs_medical ("hello world".data) (by decide)⟩


end PortfolioPatch
